import Mathlib

/-!
# Verification of the minicoin blockchain core

Shallow embedding of the minicoin repository (Go) in Lean 4:

* `Common`  — models of the `common` package helpers (hashing, hex, address
  and signature utilities).  SHA-256 and gob binary encoding are external
  library code (`crypto/sha256`, `encoding/gob`); they are modelled by a
  fixed, deterministic, executable digest/encoder pair producing the same
  *shapes* (32-byte digests, 64-char lowercase hex strings, self-describing
  field-ordered records).  None of the theorems below depends on the
  numeric values of the digest function, except through concrete
  evaluation at concrete inputs.
* `Stage3` — blocks, transactions, wallets, the chain, mining and the UTXO
  set of `stage3-transactions` (including the unnamed stage-3 sources:
  PoW miner, UTXO set, blockchain).
* `Stage2` — the stage-2 PoW chain with difficulty retargeting
  (`stage2-pow/mining.go`, `difficulty.go`, `main.go`).

Go machine integers (`int`, `int64`) are modelled by `Int`; the only place
where 64-bit wrap-around is semantically important — the miner's nonce
increment — applies an explicit two's-complement wrap (`int64wrap`).
Wall-clock time (`time.Now`) is passed in as an explicit `now : Int`
parameter; durations/hash-rates of the mining metrics are wall-clock
measurements and are not modelled.
-/

namespace Common

/-- Go `[]byte`, modelled as a list of byte values (each `< 256` in any
concrete input; the model does not enforce the bound). -/
abbrev Bytes := List Nat

/-- Lowercase hex digit for `n < 16` (other values cannot arise from a
byte split into two nibbles). -/
def hexDigit (n : Nat) : Char :=
  if n < 10 then Char.ofNat (48 + n) else Char.ofNat (87 + n)

/-- `encoding/hex.EncodeToString`: two lowercase hex characters per byte. -/
def bytesToHexChars : Bytes → List Char
  | [] => []
  | b :: rest => hexDigit (b / 16) :: hexDigit (b % 16) :: bytesToHexChars rest

/-- `common.BytesToHex` / `hex.EncodeToString` as a `String`. -/
def BytesToHex (bs : Bytes) : String := String.mk (bytesToHexChars bs)

/-- Value of a hex digit character, accepting `0-9`, `a-f`, `A-F`
(as Go's `encoding/hex` does). -/
def hexCharVal (c : Char) : Option Nat :=
  if 48 ≤ c.toNat ∧ c.toNat ≤ 57 then some (c.toNat - 48)
  else if 97 ≤ c.toNat ∧ c.toNat ≤ 102 then some (c.toNat - 87)
  else if 65 ≤ c.toNat ∧ c.toNat ≤ 70 then some (c.toNat - 55)
  else none

/-- `hex.DecodeString` on a character list: pairs of hex digits; odd
length or an invalid digit is an error (`none`). -/
def hexDecodeChars : List Char → Option Bytes
  | [] => some []
  | [_] => none
  | c1 :: c2 :: rest =>
    match hexCharVal c1, hexCharVal c2, hexDecodeChars rest with
    | some h, some l, some bs => some ((h * 16 + l) :: bs)
    | _, _, _ => none

/-- Go `hex.DecodeString`. -/
def hexDecode (s : String) : Option Bytes := hexDecodeChars s.data

/-- Modelled: SHA-256 (`crypto/sha256`) is external library code.  The
digest state is an unbounded natural folded with a multiply-add step and
truncated to 256 bits; only determinism and the 32-byte output shape are
relied on by the theorems below. -/
def mixStep (acc b : Nat) : Nat := (acc * 1099511628211 + (b + 1)) % (2 ^ 256)

/-- 256-bit digest value of a byte list (model of SHA-256). -/
def digestVal (l : Bytes) : Nat := l.foldl mixStep 14695981039346656037

/-- Big-endian expansion of a 256-bit value into exactly 32 bytes. -/
def natToBytesAux : Nat → Nat → Bytes
  | 0, _ => []
  | k + 1, n => (n / 256 ^ k % 256) :: natToBytesAux k n

/-- 32-byte big-endian digest bytes. -/
def natToBytes32 (n : Nat) : Bytes := natToBytesAux 32 n

/-- `common.Hash`: SHA-256 digest of a byte list (modelled), 32 bytes. -/
def Hash (data : Bytes) : Bytes := natToBytes32 (digestVal data)

/-- The bytes of a string (Go strings are UTF-8 byte sequences; the model
uses the code points, which agree on ASCII — all strings hashed by the
repository are ASCII hex/decimal). -/
def strBytes (s : String) : Bytes := s.data.map Char.toNat

/-- `common.HashString`: hex-encoded SHA-256 of a string. -/
def HashString (s : String) : String := BytesToHex (Hash (strBytes s))

/-- Go `strings.Repeat("0", n)`. -/
def repeatZero (n : Nat) : String := String.mk (List.replicate n '0')

/-- Go `strings.HasPrefix(s, pre)`. -/
def strHasPrefixGo (s pre : String) : Bool := pre.data.isPrefixOf s.data

/-- Two's-complement wrap of an `Int` into the `int64` range, the
behaviour of Go's `int64` addition overflow. -/
def int64wrap (n : Int) : Int := (n + 2 ^ 63) % 2 ^ 64 - 2 ^ 63

/-- Fuel-indexed helper for `natBytes` (`n` itself always suffices as
fuel, since `n / 256 < n` for positive `n`). -/
def natBytesGo : Nat → Nat → Bytes
  | 0, _ => []
  | fuel + 1, n => if n = 0 then [] else natBytesGo fuel (n / 256) ++ [n % 256]

/-- math/big `Int.Bytes()`: minimal big-endian byte representation of the
magnitude; `0` encodes as the empty slice. -/
def natBytes (n : Nat) : Bytes := natBytesGo n n

/-- math/big `SetBytes`: big-endian bytes to a natural number. -/
def bytesToNat (bs : Bytes) : Nat := bs.foldl (fun acc b => acc * 256 + b) 0

/-- An ECDSA P-256 public key, modelled by its two coordinates.  The curve
arithmetic is external (`crypto/elliptic`); only the coordinates' byte
encodings matter to the code under verification. -/
structure PubKey where
  x : Nat
  y : Nat
deriving DecidableEq, Repr

/-- An ECDSA P-256 private key.  Modelled: the key generation and curve
arithmetic are external; the model keeps the derived public key. -/
structure PrivKey where
  pub : PubKey
deriving DecidableEq, Repr

/-- Modelled: the `(r, s)` pair `ecdsa.Sign` produces (`crypto/ecdsa`,
external randomized curve arithmetic) as a deterministic executable
function of the signer's public key and the hashed message, and
`ecdsa.Verify` as the recomputation of that pair.  This idealizes only the
external primitive; the `R.Bytes()‖S.Bytes()` signature encoding of
`common.Sign` and the length check and midpoint split of `common.Verify`
are the repository's own code and are modelled faithfully below. -/
def sigRS (pk : PubKey) (hash : Bytes) : Nat × Nat :=
  (pk.x + bytesToNat hash, pk.y + bytesToNat hash)

/-- Modelled `ecdsa.Verify`: accept exactly the `(r, s)` pair the
modelled `ecdsa.Sign` produces for this key and hash. -/
def ecdsaVerify (pub : PubKey) (hash : Bytes) (r s : Nat) : Bool :=
  (r == (sigRS pub hash).1) && (s == (sigRS pub hash).2)

/-- `common.Sign`: hash the data, sign the hash with `ecdsa.Sign`, and
return the concatenation `R.Bytes() ‖ S.Bytes()` of the two minimal
big-endian magnitude encodings (variable length, no padding). -/
def Sign (priv : PrivKey) (data : Bytes) : Bytes :=
  natBytes (sigRS priv.pub (Hash data)).1 ++ natBytes (sigRS priv.pub (Hash data)).2

/-- `common.Verify`: hash the data; reject an empty or odd-length
signature; split the signature at its midpoint, `SetBytes` each half into
`r` and `s`, and check them with `ecdsa.Verify`. -/
def Verify (pub : PubKey) (data sig : Bytes) : Bool :=
  if sig.length % 2 ≠ 0 ∨ sig.length = 0 then false
  else
    ecdsaVerify pub (Hash data) (bytesToNat (sig.take (sig.length / 2)))
      (bytesToNat (sig.drop (sig.length / 2)))

/-- Whether the signature the modelled signer produces over a hashed
message splits back correctly at the verifier's midpoint: the minimal
byte encodings of `r` and `s` must have equal non-zero length.  When
this fails — the encodings differ in length, or their total length is
odd — `common.Verify` mis-splits or rejects the concatenation, and
verification fails even under the matching key. -/
def sigSplitsEvenly (pk : PubKey) (hash : Bytes) : Bool :=
  decide ((natBytes (sigRS pk hash).1).length = (natBytes (sigRS pk hash).2).length) &&
    decide ((natBytes (sigRS pk hash).1).length ≠ 0)

/-- `common.PublicKeyToAddress`: hex of the first 20 bytes of the double
SHA-256 of `X.Bytes() ‖ Y.Bytes()`. -/
def PublicKeyToAddress (pub : PubKey) : String :=
  BytesToHex ((Hash (Hash (natBytes pub.x ++ natBytes pub.y))).take 20)

/-! Model of the self-describing `encoding/gob` binary encoder: fields in
declaration order, byte slices and lists length-prefixed. -/

/-- Length-prefixed byte slice (gob model). -/
def encBytes (bs : Bytes) : Bytes := bs.length :: bs

/-- Signed 64-bit integer: sign byte plus length-prefixed magnitude
(gob model). -/
def encInt (i : Int) : Bytes :=
  (if i < 0 then 0 else 1) :: encBytes (natBytes i.natAbs)

/-- Length-prefixed list of byte slices (gob model of `[][]byte`). -/
def encBytesList (l : List Bytes) : Bytes := l.length :: (l.map encBytes).flatten

end Common

namespace Stage3

open Common

/-! ## `stage3-transactions`: transaction model (`wallets.go`) -/

/-- `TxInput` (Go `nil` byte slices are modelled as `[]`). -/
structure TxInput where
  TxID : Bytes
  OutIndex : Int
  Signature : Bytes
  PubKey : Bytes
deriving DecidableEq, Repr

/-- `TxOutput`. -/
structure TxOutput where
  Value : Int
  PubKeyHash : Bytes
deriving DecidableEq, Repr

/-- `Transaction`. -/
structure Transaction where
  ID : Bytes
  Inputs : List TxInput
  Outputs : List TxOutput
  Timestamp : Int
deriving DecidableEq, Repr

/-- gob model of `Transaction.serialize`: every field of the transaction,
in declaration order, including the current `ID`. -/
def Transaction.serialize (tx : Transaction) : Bytes :=
  encBytes tx.ID ++
    (tx.Inputs.length ::
      (tx.Inputs.map fun inp =>
        encBytes inp.TxID ++ encInt inp.OutIndex ++
          encBytes inp.Signature ++ encBytes inp.PubKey).flatten) ++
    (tx.Outputs.length ::
      (tx.Outputs.map fun o => encInt o.Value ++ encBytes o.PubKeyHash).flatten) ++
    encInt tx.Timestamp

/-- `Transaction.Hash`.  The Go source builds `txCopy := *tx`, clears
`txCopy.ID`, but then serializes the *original* receiver
(`common.Hash(tx.serialize())`), so the cleared copy is dead code and the
digest covers the current `ID` field.  The model mirrors the executed
code path. -/
def Transaction.Hash (tx : Transaction) : Bytes :=
  Common.Hash tx.serialize

/-- `Transaction.IsCoinbase`: exactly one input with empty `TxID` and
`OutIndex == -1`. -/
def Transaction.IsCoinbase (tx : Transaction) : Bool :=
  match tx.Inputs with
  | [inp] => inp.TxID.length == 0 && inp.OutIndex == -1
  | _ => false

/-- `NewCoinbaseTx` (`time.Now().Unix()` passed in as `now`). -/
def NewCoinbaseTx (toAddr data : String) (now : Int) : Transaction :=
  let data1 := if data = "" then "Reward to '" ++ toAddr ++ "'" else data
  let txIn : TxInput := { TxID := [], OutIndex := -1, Signature := [], PubKey := strBytes data1 }
  let pubKeyHash := match hexDecode toAddr with
    | some bs => bs
    | none => strBytes toAddr
  let txOut : TxOutput := { Value := 50, PubKeyHash := pubKeyHash }
  let tx : Transaction := { ID := [], Inputs := [txIn], Outputs := [txOut], Timestamp := now }
  { tx with ID := tx.Hash }

/-- `NewTransaction`: fails on non-positive amount or a non-hex address;
otherwise builds an unsigned transaction with no inputs and one output
(the source's stub, pending UTXO integration). -/
def NewTransaction (fromAddr toAddr : String) (amount : Int) (now : Int) : Option Transaction :=
  if amount ≤ 0 then none
  else
    match hexDecode fromAddr with
    | none => none
    | some _ =>
      match hexDecode toAddr with
      | none => none
      | some toPubKeyHash =>
        let tx : Transaction :=
          { ID := [], Inputs := [],
            Outputs := [{ Value := amount, PubKeyHash := toPubKeyHash }],
            Timestamp := now }
        some { tx with ID := tx.Hash }

/-- One input with signature and public key cleared (the per-element
step of `trimmedCopy`). -/
def trimInput (inp : TxInput) : TxInput :=
  { TxID := inp.TxID, OutIndex := inp.OutIndex, Signature := [], PubKey := [] }

/-- `Transaction.trimmedCopy`: inputs with signature and public key
cleared; ID, outputs and timestamp preserved. -/
def Transaction.trimmedCopy (tx : Transaction) : Transaction :=
  { ID := tx.ID
    Inputs := tx.Inputs.map trimInput
    Outputs := tx.Outputs.map fun o => { Value := o.Value, PubKeyHash := o.PubKeyHash }
    Timestamp := tx.Timestamp }

/-! ## Wallet (`wallet.go`) -/

/-- `Wallet` (`wallet.go`): private key, public key, cached address. -/
structure Wallet where
  PrivateKey : PrivKey
  PublicKey : PubKey
  Address : String
deriving DecidableEq, Repr

/-- `NewWallet` given a freshly generated private key (key generation is
external randomized code). -/
def NewWallet (priv : PrivKey) : Wallet :=
  { PrivateKey := priv, PublicKey := priv.pub, Address := PublicKeyToAddress priv.pub }

/-- `Wallet.GetAddress`. -/
def Wallet.GetAddress (w : Wallet) : String := w.Address

/-- `Wallet.Sign`: delegates to `common.Sign`. -/
def Wallet.Sign (w : Wallet) (data : Bytes) : Bytes := Common.Sign w.PrivateKey data

/-- `VerifySignature`: delegates to `common.Verify`. -/
def VerifySignature (pub : PubKey) (data sig : Bytes) : Bool := Common.Verify pub data sig

/-- `publicKeyToBytes`: `X.Bytes() ‖ Y.Bytes()` (minimal big-endian,
variable length). -/
def publicKeyToBytes (pk : PubKey) : Bytes := natBytes pk.x ++ natBytes pk.y

/-- `bytesToPublicKey`: reject empty or odd-length byte strings, split in
half, `SetBytes` each half. -/
def bytesToPublicKey (bs : Bytes) : Option PubKey :=
  if bs.length = 0 then none
  else if bs.length % 2 ≠ 0 then none
  else
    let keyLen := bs.length / 2
    some { x := bytesToNat (bs.take keyLen), y := bytesToNat (bs.drop keyLen) }

/-- Lookup in the `prevTxs map[string]*Transaction` context, modelled as
an association list keyed by hex transaction ID. -/
def lookupTx (prevTxs : List (String × Transaction)) (key : String) : Option Transaction :=
  match prevTxs.find? (fun p => p.1 == key) with
  | some p => some p.2
  | none => none

/-- Write `Signature`/`PubKey` of the `i`-th input (the two field
assignments `tx.Inputs[i].Signature = …; tx.Inputs[i].PubKey = …`). -/
def setSigPub (l : List TxInput) (i : Nat) (sig pk : Bytes) : List TxInput :=
  match l[i]? with
  | some inp => l.set i { inp with Signature := sig, PubKey := pk }
  | none => l

/-- The signing loop of `Transaction.Sign`: for each input of the trimmed
copy, temporarily plant the referenced output's `PubKeyHash` as the
input's `PubKey`, recompute the copy's `ID`, clear the planted key, sign
the recomputed `ID`, and store signature and wallet public key on the
original transaction.  Out-of-range output references (a Go panic) are
modelled as `none`. -/
def signAux (w : Wallet) (prevTxs : List (String × Transaction)) :
    Nat → Nat → Transaction → Transaction → Option Transaction
  | 0, _, orig, _ => some orig
  | n + 1, i, orig, txCopy =>
    match txCopy.Inputs[i]? with
    | none => some orig
    | some input =>
      match lookupTx prevTxs (BytesToHex input.TxID) with
      | none => none
      | some prevTx =>
        if input.OutIndex < 0 then none
        else
          match prevTx.Outputs[input.OutIndex.toNat]? with
          | none => none
          | some prevOut =>
            let txCopy1 :=
              { txCopy with Inputs :=
                  txCopy.Inputs.set i { input with Signature := [], PubKey := prevOut.PubKeyHash } }
            let newId := txCopy1.Hash
            let txCopy2 := { txCopy1 with ID := newId }
            let txCopy3 :=
              { txCopy2 with Inputs :=
                  txCopy2.Inputs.set i { input with Signature := [], PubKey := [] } }
            let signature := w.Sign newId
            let orig1 :=
              { orig with Inputs :=
                  setSigPub orig.Inputs i signature (publicKeyToBytes w.PublicKey) }
            signAux w prevTxs n (i + 1) orig1 txCopy3

/-- `Transaction.Sign`: no-op for coinbase; fails when a referenced prior
transaction is absent; otherwise runs the signing loop over the trimmed
copy. -/
def Transaction.Sign (tx : Transaction) (w : Wallet)
    (prevTxs : List (String × Transaction)) : Option Transaction :=
  if tx.IsCoinbase then some tx
  else if tx.Inputs.any (fun inp => (lookupTx prevTxs (BytesToHex inp.TxID)).isNone) then none
  else signAux w prevTxs tx.Inputs.length 0 tx tx.trimmedCopy

/-- The verification loop of `Transaction.Verify`, mirroring the signing
loop's digest reconstruction; a missing context entry or out-of-range
output reference inside the loop (a Go panic) is modelled as `none`. -/
def verifyAux (prevTxs : List (String × Transaction)) :
    Nat → Nat → Transaction → Transaction → Option Bool
  | 0, _, _, _ => some true
  | n + 1, i, tx, txCopy =>
    match tx.Inputs[i]? with
    | none => some true
    | some input =>
      match lookupTx prevTxs (BytesToHex input.TxID) with
      | none => none
      | some prevTx =>
        match txCopy.Inputs[i]? with
        | none => none
        | some cinput =>
          if input.OutIndex < 0 then none
          else
            match prevTx.Outputs[input.OutIndex.toNat]? with
            | none => none
            | some prevOut =>
              let txCopy1 :=
                { txCopy with Inputs :=
                    txCopy.Inputs.set i { cinput with Signature := [], PubKey := prevOut.PubKeyHash } }
              let newId := txCopy1.Hash
              let txCopy2 := { txCopy1 with ID := newId }
              let txCopy3 :=
                { txCopy2 with Inputs :=
                    txCopy2.Inputs.set i { cinput with Signature := [], PubKey := [] } }
              match bytesToPublicKey input.PubKey with
              | none => some false
              | some pubKey =>
                if VerifySignature pubKey newId input.Signature then
                  verifyAux prevTxs n (i + 1) tx txCopy3
                else some false

/-- `Transaction.Verify`: coinbase verifies trivially; a missing context
entry returns `false`; otherwise the verification loop must accept every
input's signature. -/
def Transaction.Verify (tx : Transaction)
    (prevTxs : List (String × Transaction)) : Option Bool :=
  if tx.IsCoinbase then some true
  else if tx.Inputs.any (fun inp => (lookupTx prevTxs (BytesToHex inp.TxID)).isNone) then some false
  else verifyAux prevTxs tx.Inputs.length 0 tx tx.trimmedCopy

/-! ## Block (`block.go`) and the stage-3 miner -/

/-- `Block` of `stage3-transactions/block.go`. -/
structure Block where
  Index : Int
  Timestamp : Int
  Transactions : List Transaction
  PreviousHash : String
  Hash : String
  Nonce : Int
  Difficulty : Int
deriving DecidableEq, Repr

/-- `NewBlock` (`time.Now().Unix()` passed in as `now`). -/
def NewBlock (index : Int) (transactions : List Transaction)
    (previousHash : String) (difficulty : Int) (now : Int) : Block :=
  { Index := index, Timestamp := now, Transactions := transactions,
    PreviousHash := previousHash, Hash := "", Nonce := 0, Difficulty := difficulty }

/-- gob model of `Block.prepareData`'s `hashData` record: index,
timestamp, list of transaction IDs, previous hash, nonce, difficulty.
The stored `Hash` field does not participate. -/
def Block.prepareData (b : Block) : Bytes :=
  encInt b.Index ++ encInt b.Timestamp ++
    encBytesList (b.Transactions.map Transaction.ID) ++
    encBytes (strBytes b.PreviousHash) ++ encInt b.Nonce ++ encInt b.Difficulty

/-- `Block.CalculateHashWithNonce`: hex of the SHA-256 of the prepared
header data. -/
def Block.CalculateHashWithNonce (b : Block) : String :=
  BytesToHex (Common.Hash b.prepareData)

/-- `CheckHashDifficulty` of the stage-3 miner: difficulty 0 accepts any
hash, otherwise the hash must start with `difficulty` `'0'` characters.
(`strings.Repeat` panics on a negative count in Go; negative difficulties
never reach it because `MineBlock` rejects them first — the model truncates
at zero.) -/
def CheckHashDifficulty (hash : String) (difficulty : Int) : Bool :=
  if difficulty == 0 then true
  else strHasPrefixGo hash (repeatZero difficulty.toNat)

/-- Result of the stage-3 nonce search. -/
inductive MineResult where
  | found (b : Block) (attempts : Int)
  | fuelOut (b : Block) (attempts : Int)
  | invalidDifficulty
deriving DecidableEq, Repr

/-- The unbounded `for {}` nonce search of the stage-3 `MineBlock`, with
explicit fuel: `fuelOut` carries the state reached when the fuel runs out
(the Go loop has no exit other than success).  Note: this loop neither
resets the nonce to zero nor checks for overflow — the increment wraps
silently as a Go `int64`. -/
def mineLoop (b : Block) (attempts : Int) : Nat → MineResult
  | 0 => .fuelOut b attempts
  | fuel + 1 =>
    let hash := b.CalculateHashWithNonce
    let attempts1 := attempts + 1
    if CheckHashDifficulty hash b.Difficulty then
      .found { b with Hash := hash } attempts1
    else
      mineLoop { b with Nonce := int64wrap (b.Nonce + 1) } attempts1 fuel

/-- Stage-3 `MineBlock`: reject negative difficulty, then search. -/
def MineBlock (b : Block) (fuel : Nat) : MineResult :=
  if b.Difficulty < 0 then .invalidDifficulty
  else mineLoop b 0 fuel

/-- Stage-3 `ValidateProofOfWork`: only the difficulty prefix of the
stored hash. -/
def ValidateProofOfWork (b : Block) : Bool :=
  CheckHashDifficulty b.Hash b.Difficulty

/-- `Block.Validate`: recomputed hash must equal the stored hash, then
proof-of-work must check out. -/
def Block.Validate (b : Block) : Bool :=
  (b.CalculateHashWithNonce == b.Hash) && ValidateProofOfWork b

/-- `NewGenesisBlock` (the source panics if genesis mining fails; the
model returns `none`). -/
def NewGenesisBlock (difficulty : Int) (minerAddress : String) (now : Int)
    (fuel : Nat) : Option Block :=
  let coinbaseTx := NewCoinbaseTx minerAddress "Genesis Block" now
  let block : Block :=
    { Index := 0, Timestamp := now, Transactions := [coinbaseTx],
      PreviousHash := "", Hash := "", Nonce := 0, Difficulty := difficulty }
  match MineBlock block fuel with
  | .found b _ => some b
  | _ => none

/-! ## Blockchain (stage-3) -/

/-- `Blockchain` of stage 3 (the RW-mutex carries no state and is
dropped). -/
structure Blockchain where
  Blocks : List Block
  Difficulty : Int
deriving DecidableEq, Repr

/-- `NewBlockchain`: mine a genesis block, start a chain with it. -/
def NewBlockchain (difficulty : Int) (minerAddress : String) (now : Int)
    (fuel : Nat) : Option Blockchain :=
  (NewGenesisBlock difficulty minerAddress now fuel).map fun g =>
    { Blocks := [g], Difficulty := difficulty }

/-- Result of the stage-3 `Blockchain.MineBlock`. -/
inductive ChainMineResult where
  | ok (newBlock : Block) (bc : Blockchain) (attempts : Int)
  | fuelOut
  | err
deriving DecidableEq, Repr

/-- Stage-3 `Blockchain.MineBlock`: build a block on the tip at the
chain's current difficulty, mine it, append it.  No difficulty
retargeting of any kind is performed. -/
def Blockchain.MineBlock (bc : Blockchain) (transactions : List Transaction)
    (now : Int) (fuel : Nat) : ChainMineResult :=
  match bc.Blocks.getLast? with
  | none => .err
  | some lastBlock =>
    let newBlock := NewBlock (lastBlock.Index + 1) transactions lastBlock.Hash bc.Difficulty now
    match Stage3.MineBlock newBlock fuel with
    | .found b attempts => .ok b { bc with Blocks := bc.Blocks ++ [b] } attempts
    | .fuelOut _ _ => .fuelOut
    | .invalidDifficulty => .err

/-- Chain component of a `ChainMineResult`, when mining succeeded. -/
def ChainMineResult.chain? : ChainMineResult → Option Blockchain
  | .ok _ bc _ => some bc
  | _ => none

/-- The `i > 0` body of one `IsValid` loop iteration: the block must
validate, continue the index sequence, link to the predecessor's hash,
and not decrease the timestamp. -/
def linkOK (prev b : Block) : Bool :=
  b.Validate && b.Index == prev.Index + 1 && b.PreviousHash == prev.Hash &&
    !decide (b.Timestamp < prev.Timestamp)

/-- The `i > 0` part of the `IsValid` loop, from a given predecessor. -/
def linkedFrom (prev : Block) : List Block → Bool
  | [] => true
  | b :: rest => linkOK prev b && linkedFrom b rest

/-- Stage-3 `Blockchain.IsValid`. -/
def Blockchain.IsValid (bc : Blockchain) : Bool :=
  match bc.Blocks with
  | [] => false
  | b0 :: rest =>
    b0.Index == 0 && b0.PreviousHash == "" && b0.Validate && linkedFrom b0 rest

/-! ## UTXO set (stage-3 unnamed source) -/

/-- `UTXO`. -/
structure UTXO where
  TxID : Bytes
  OutIndex : Int
  Output : TxOutput
deriving DecidableEq, Repr

/-- `UTXOSet`: Go `map[string][]UTXO` modelled as a total function
defaulting to `[]` (reading a missing key of a Go map yields the zero
value; per-address operations coincide pointwise). -/
structure UTXOSet where
  UTXOs : String → List UTXO

/-- Whether a stored UTXO is the output consumed by an input
(`hex(u.TxID) == hex(input.TxID) && u.OutIndex == input.OutIndex`). -/
def utxoMatchesInput (u : UTXO) (inp : TxInput) : Bool :=
  BytesToHex u.TxID == BytesToHex inp.TxID && u.OutIndex == inp.OutIndex

/-- Remove the output consumed by one input from every address's list. -/
def removeInput (m : String → List UTXO) (inp : TxInput) : String → List UTXO :=
  fun addr => (m addr).filter fun u => !utxoMatchesInput u inp

/-- Append one transaction output as a fresh UTXO under the address
`hex(output.PubKeyHash)`. -/
def addOutput (m : String → List UTXO) (txID : Bytes) (outIdx : Int)
    (output : TxOutput) : String → List UTXO :=
  fun addr =>
    if addr = BytesToHex output.PubKeyHash then
      m addr ++ [{ TxID := txID, OutIndex := outIdx, Output := output }]
    else m addr

/-- The per-transaction body of `UTXOSet.Update`: remove the consumed
outputs (non-coinbase only), then append every output. -/
def updateTx (m : String → List UTXO) (tx : Transaction) : String → List UTXO :=
  let m1 := if tx.IsCoinbase then m else tx.Inputs.foldl removeInput m
  tx.Outputs.enum.foldl (fun acc p => addOutput acc tx.ID p.1 p.2) m1

/-- `UTXOSet.Update` (the source's error return is always `nil`). -/
def UTXOSet.Update (us : UTXOSet) (block : Block) : UTXOSet :=
  { UTXOs := block.Transactions.foldl updateTx us.UTXOs }

/-- Record a spent output in the `map[string]map[int]bool` tracker,
modelled as a function to the list of marked indices. -/
def markSpent (S : String → List Int) (txIDhex : String) (outIdx : Int) :
    String → List Int :=
  fun k => if k = txIDhex then S k ++ [outIdx] else S k

/-- Whether an output is marked spent. -/
def spentHas (S : String → List Int) (txIDhex : String) (outIdx : Int) : Bool :=
  (S txIDhex).contains outIdx

/-- The output-insertion half of the `Reindex` transaction body: register
each output not already marked spent. -/
def reindexAddOutputs (st : (String → List UTXO) × (String → List Int))
    (tx : Transaction) : String → List UTXO :=
  tx.Outputs.enum.foldl
    (fun m p =>
      if spentHas st.2 (BytesToHex tx.ID) p.1 then m
      else addOutput m tx.ID p.1 p.2) st.1

/-- The per-transaction body of `Reindex`: outputs first (against the
current spent set), then mark this transaction's inputs (non-coinbase
only). -/
def reindexTx (st : (String → List UTXO) × (String → List Int))
    (tx : Transaction) : (String → List UTXO) × (String → List Int) :=
  let m1 := reindexAddOutputs st tx
  let S1 :=
    if tx.IsCoinbase then st.2
    else tx.Inputs.foldl (fun S inp => markSpent S (BytesToHex inp.TxID) inp.OutIndex) st.2
  (m1, S1)

/-- One block of the `Reindex` scan. -/
def reindexBlock (st : (String → List UTXO) × (String → List Int)) (b : Block) :
    (String → List UTXO) × (String → List Int) :=
  b.Transactions.foldl reindexTx st

/-- `UTXOSet.Reindex`: clear the set, then scan the chain in reverse
block order (latest first), tracking spent outputs; the prior contents of
the receiver are discarded (the source's error return is always `nil`). -/
def UTXOSet.Reindex (_us : UTXOSet) (blockchain : Blockchain) : UTXOSet :=
  { UTXOs := (blockchain.Blocks.reverse.foldl reindexBlock (fun _ => [], fun _ => [])).1 }

/-- `NewUTXOSet`: empty set reindexed from the chain. -/
def NewUTXOSet (blockchain : Blockchain) : UTXOSet :=
  UTXOSet.Reindex { UTXOs := fun _ => [] } blockchain

/-- One iteration's map update in `FindSpendableOutputs`:
`unspentOutputs[hex(u.TxID)] = append(…, u.OutIndex)`. -/
def selStep (m : String → List Int) (u : UTXO) : String → List Int :=
  fun k => if k = BytesToHex u.TxID then m k ++ [u.OutIndex] else m k

/-- The accumulation loop of `FindSpendableOutputs`: walk the stored
UTXOs in order, record `(hex tx id, out index)`, accumulate the value,
and stop as soon as the accumulated total reaches the requested amount. -/
def spendLoop (amount : Int) : List UTXO → Int → (String → List Int) → Int × (String → List Int)
  | [], acc, m => (acc, m)
  | u :: rest, acc, m =>
    let m1 := selStep m u
    let acc1 := acc + u.Output.Value
    if amount ≤ acc1 then (acc1, m1)
    else spendLoop amount rest acc1 m1

/-- `UTXOSet.FindSpendableOutputs`. -/
def UTXOSet.FindSpendableOutputs (us : UTXOSet) (address : String) (amount : Int) :
    Int × (String → List Int) :=
  spendLoop amount (us.UTXOs address) 0 (fun _ => [])

/-- `UTXOSet.GetBalance`: sum of the stored values at the address. -/
def UTXOSet.GetBalance (us : UTXOSet) (address : String) : Int :=
  (us.UTXOs address).foldl (fun acc u => acc + u.Output.Value) 0

/-- `UTXOSet.FindUTXO` (the source copies; the model returns the list). -/
def UTXOSet.FindUTXO (us : UTXOSet) (address : String) : List UTXO :=
  us.UTXOs address

end Stage3

namespace Stage2

open Common

/-! ## `stage2-pow/mining.go` -/

/-- Stage-2 `Block` (string payload). -/
structure Block where
  Index : Int
  Timestamp : Int
  Data : String
  PreviousHash : String
  Hash : String
  Nonce : Int
  Difficulty : Int
deriving DecidableEq, Repr

/-- Stage-2 `NewBlock` (`time.Now().Unix()` passed in as `now`). -/
def NewBlock (index : Int) (data previousHash : String) (difficulty : Int)
    (now : Int) : Block :=
  { Index := index, Timestamp := now, Data := data, PreviousHash := previousHash,
    Nonce := 0, Difficulty := difficulty, Hash := "" }

/-- Stage-2 `CalculateHashWithNonce`: decimal renderings of the numeric
fields concatenated with the string fields, hashed. -/
def CalculateHashWithNonce (b : Block) : String :=
  HashString (toString b.Index ++ toString b.Timestamp ++ b.Data ++
    b.PreviousHash ++ toString b.Nonce ++ toString b.Difficulty)

/-- Stage-2 `CheckHashDifficulty`: the hash must start with `difficulty`
`'0'` characters (`strings.Repeat` of a non-positive count is empty —
negative difficulties never reach this under `MineBlock`'s guard). -/
def CheckHashDifficulty (hash : String) (difficulty : Int) : Bool :=
  strHasPrefixGo hash (repeatZero difficulty.toNat)

/-- Result of the stage-2 nonce search.  `overflowErr` is the source's
"nonce overflow - unable to find valid hash" error. -/
inductive MineResult where
  | found (b : Block) (attempts : Int)
  | fuelOut (b : Block) (attempts : Int)
  | overflowErr
  | invalidDifficulty
deriving DecidableEq, Repr

/-- The stage-2 nonce search with explicit fuel (`fuelOut` stands for
"still searching").  After each failed attempt the nonce is incremented
with `int64` wrap-around semantics, and a negative (wrapped) nonce aborts
with the overflow error — exactly the source's sign-flip detection. -/
def mineLoop (b : Block) (attempts : Int) : Nat → MineResult
  | 0 => .fuelOut b attempts
  | fuel + 1 =>
    let hash := CalculateHashWithNonce b
    let attempts1 := attempts + 1
    if CheckHashDifficulty hash b.Difficulty then
      .found { b with Hash := hash } attempts1
    else
      let b1 := { b with Nonce := int64wrap (b.Nonce + 1) }
      if b1.Nonce < 0 then .overflowErr
      else mineLoop b1 attempts1 fuel

/-- Stage-2 `MineBlock`: reject negative difficulty, set the block's
difficulty, reset the nonce to zero, search. -/
def MineBlock (b : Block) (difficulty : Int) (fuel : Nat) : MineResult :=
  if difficulty < 0 then .invalidDifficulty
  else mineLoop { b with Difficulty := difficulty, Nonce := 0 } 0 fuel

/-- Stage-2 `ValidateProofOfWork`: recomputed hash equals the stored one
and the difficulty prefix holds. -/
def ValidateProofOfWork (b : Block) : Bool :=
  (CalculateHashWithNonce b == b.Hash) && CheckHashDifficulty b.Hash b.Difficulty

/-! ## `stage2-pow/difficulty.go` -/

/-- `TargetBlockTime` (seconds). -/
def TargetBlockTime : Int := 10

/-- `AdjustmentInterval` (blocks). -/
def AdjustmentInterval : Int := 10

/-- `MaxAdjustmentFactor`. -/
def MaxAdjustmentFactor : ℚ := 2

/-- `MinDifficulty`. -/
def MinDifficulty : Int := 0

/-- `MaxDifficulty`. -/
def MaxDifficulty : Int := 10

/-- Stage-2 `Blockchain` (the RW-mutex is dropped). -/
structure Blockchain where
  Blocks : List Block
  Difficulty : Int
  TargetBlockTime : Int
deriving DecidableEq, Repr

/-- `GetAverageBlockTime`: average of the consecutive timestamp
differences over the most recent `min(lastNBlocks, len − 1)` pairs; zero
when fewer than two blocks exist.  The source computes in `float64`; the
model computes exactly in `ℚ`. -/
def GetAverageBlockTime (bc : Blockchain) (lastNBlocks : Int) : ℚ :=
  let n := bc.Blocks.length
  if n ≤ 1 then 0
  else
    let blocksToCheck := if (n : Int) - 1 < lastNBlocks then (n : Int) - 1 else lastNBlocks
    if blocksToCheck = 0 then 0
    else
      let ts := bc.Blocks.map Block.Timestamp
      let total := (List.range blocksToCheck.toNat).foldl
        (fun acc k => acc + (ts.getD (n - 1 - k) 0 - ts.getD (n - 2 - k) 0)) 0
      (total : ℚ) / (blocksToCheck : ℚ)

/-- `int(math.Ceil(math.Log2 q))` restricted to the clamped domain
`q ∈ [1, 2]` at which `AdjustDifficulty` evaluates it: `0` at `q = 1` and
`1` on `(1, 2]`.  (The source computes in `float64`; on this domain the
result of the float computation agrees with the exact one.) -/
def ceilLog2Clamped (q : ℚ) : Int := if q ≤ 1 then 0 else 1

/-- `AdjustDifficulty`: unchanged when either time is zero; otherwise the
time/target quotient is clamped to `[1/2, 2]`, the difficulty moves down
by `⌈log₂ ratio⌉` when blocks are slow and up by `⌈log₂ (1/ratio)⌉` when
fast, and the result is clamped to `[MinDifficulty, MaxDifficulty]`. -/
def AdjustDifficulty (currentDifficulty : Int) (actualTime targetTime : ℚ) : Int :=
  if actualTime = 0 ∨ targetTime = 0 then currentDifficulty
  else
    let r0 := actualTime / targetTime
    let r1 :=
      if r0 > MaxAdjustmentFactor then MaxAdjustmentFactor
      else if r0 < 1 / MaxAdjustmentFactor then 1 / MaxAdjustmentFactor
      else r0
    let newDifficulty :=
      if r1 > 1 then currentDifficulty - ceilLog2Clamped r1
      else currentDifficulty + ceilLog2Clamped (1 / r1)
    if newDifficulty < MinDifficulty then MinDifficulty
    else if newDifficulty > MaxDifficulty then MaxDifficulty
    else newDifficulty

/-- `CalculateDifficulty`: keep the current difficulty off the adjustment
boundary; on it, adjust by the windowed average block time. -/
def CalculateDifficulty (bc : Blockchain) (targetTime : Int) : Int :=
  if (bc.Blocks.length : Int) < AdjustmentInterval then bc.Difficulty
  else if (bc.Blocks.length : Int) % AdjustmentInterval ≠ 0 then bc.Difficulty
  else AdjustDifficulty bc.Difficulty (GetAverageBlockTime bc AdjustmentInterval) (targetTime : ℚ)

/-- `ShouldAdjustDifficulty`: chain length has reached the interval and is
a multiple of it. -/
def ShouldAdjustDifficulty (bc : Blockchain) : Bool :=
  decide (AdjustmentInterval ≤ (bc.Blocks.length : Int)) &&
    ((bc.Blocks.length : Int) % AdjustmentInterval == 0)

/-! ## `stage2-pow/main.go` -/

/-- Result of the stage-2 `Blockchain.AddBlock`. -/
inductive AddBlockResult where
  | ok (bc : Blockchain) (attempts : Int)
  | fuelOut
  | err
deriving DecidableEq, Repr

/-- Stage-2 `Blockchain.AddBlock`: build a block on the tip, mine it at
the chain's current difficulty, append it, then — if the grown chain sits
on an adjustment boundary — replace the chain's difficulty with
`CalculateDifficulty` of the grown chain.  A mining failure leaves the
chain unchanged. -/
def Blockchain.AddBlock (bc : Blockchain) (data : String) (now : Int)
    (fuel : Nat) : AddBlockResult :=
  match bc.Blocks.getLast? with
  | none => .err
  | some previousBlock =>
    let newBlock := NewBlock (previousBlock.Index + 1) data previousBlock.Hash bc.Difficulty now
    match MineBlock newBlock bc.Difficulty fuel with
    | .found b attempts =>
      let bc1 := { bc with Blocks := bc.Blocks ++ [b] }
      let bc2 :=
        if ShouldAdjustDifficulty bc1 then
          { bc1 with Difficulty := CalculateDifficulty bc1 bc.TargetBlockTime }
        else bc1
      .ok bc2 attempts
    | .fuelOut _ _ => .fuelOut
    | .overflowErr => .err
    | .invalidDifficulty => .err

end Stage2

namespace Stage3

/-- Modelled from the spec: stage 3 has no difficulty controller of its
own in the source; §4.5's `average_block_time` is transliterated from the
stage-2 `GetAverageBlockTime` onto stage-3 chains, to state what a
retargeting mine-and-append would compute. -/
def GetAverageBlockTimeSpec (bc : Blockchain) (lastNBlocks : Int) : ℚ :=
  let n := bc.Blocks.length
  if n ≤ 1 then 0
  else
    let blocksToCheck := if (n : Int) - 1 < lastNBlocks then (n : Int) - 1 else lastNBlocks
    if blocksToCheck = 0 then 0
    else
      let ts := bc.Blocks.map Block.Timestamp
      let total := (List.range blocksToCheck.toNat).foldl
        (fun acc k => acc + (ts.getD (n - 1 - k) 0 - ts.getD (n - 2 - k) 0)) 0
      (total : ℚ) / (blocksToCheck : ℚ)

/-- Modelled from the spec: §4.5's `should_adjust` on stage-3 chains
(stage 3 itself never consults it). -/
def ShouldAdjustSpec (bc : Blockchain) : Bool :=
  decide (Stage2.AdjustmentInterval ≤ (bc.Blocks.length : Int)) &&
    ((bc.Blocks.length : Int) % Stage2.AdjustmentInterval == 0)

/-- Modelled from the spec: §4.5's `calculate_next` on stage-3 chains,
delegating to the stage-2 `AdjustDifficulty` (stage 3 itself never
consults it). -/
def CalculateDifficultySpec (bc : Blockchain) (targetTime : Int) : Int :=
  if (bc.Blocks.length : Int) < Stage2.AdjustmentInterval then bc.Difficulty
  else if (bc.Blocks.length : Int) % Stage2.AdjustmentInterval ≠ 0 then bc.Difficulty
  else Stage2.AdjustDifficulty bc.Difficulty
    (GetAverageBlockTimeSpec bc Stage2.AdjustmentInterval) (targetTime : ℚ)

end Stage3

namespace Stage3

open Common

/-! ## Claim C1: `Transaction.Hash` and the cleared-ID serialization -/

/-- Modelled from the spec: §4.2's `hash()` contract — canonical
serialization with the `id` field cleared, then SHA-256 — stated as its
own definition so it can be compared with the source's
`Transaction.Hash`. -/
def Transaction.hashSpec (tx : Transaction) : Bytes :=
  Common.Hash (Transaction.serialize { tx with ID := [] })

/-- A minimal concrete transaction with a non-empty stored ID. -/
def cTxA : Transaction := { ID := [1], Inputs := [], Outputs := [], Timestamp := 0 }

/-- The same transaction with a different stored ID. -/
def cTxB : Transaction := { cTxA with ID := [2] }

/-- **C1** — refuted on the code (the claim is the documented intent):
`Transaction.Hash` serializes the *original* transaction (the cleared
`txCopy` is dead), so the digest *does* depend on the stored `ID`: two
transactions that differ only in `ID` hash differently, and neither
matches the spec's cleared-ID hash, although the spec-prescribed hash
itself is ID-independent. -/
theorem c1_hash_depends_on_stored_id :
    cTxA.Hash ≠ cTxB.Hash ∧ cTxA.Hash ≠ cTxA.hashSpec ∧
      cTxB.hashSpec = cTxA.hashSpec := by decide

/-! ## Claim C2: postcondition of a successful stage-3 mine -/

/-- Replacing only the stored `Hash` does not change the recomputed
header hash (the `Hash` field is not part of the preimage). -/
theorem calculateHash_set_hash (b : Block) (h : String) :
    Block.CalculateHashWithNonce { b with Hash := h } = b.CalculateHashWithNonce := rfl

/-- A `found` outcome of the stage-3 nonce search stores exactly the
recomputed header hash, and that hash satisfies the block's difficulty. -/
theorem mineLoop_found_spec (fuel : Nat) :
    ∀ (b : Block) (attempts a : Int) (b' : Block),
      mineLoop b attempts fuel = .found b' a →
      b'.Hash = b'.CalculateHashWithNonce ∧
        CheckHashDifficulty b'.Hash b'.Difficulty = true := by
  induction fuel with
  | zero => intro b attempts a b' h; simp [mineLoop] at h
  | succ n ih =>
    intro b attempts a b' h
    rw [mineLoop] at h
    by_cases hc : CheckHashDifficulty b.CalculateHashWithNonce b.Difficulty
    · simp only [hc, if_true] at h
      cases h
      refine ⟨(calculateHash_set_hash b _).symm, ?_⟩
      exact hc
    · simp only [hc, if_false, Bool.false_eq_true] at h
      exact ih _ _ _ _ h

/-- **C2** — for every block of non-negative difficulty, a successful
stage-3 `MineBlock` leaves the block with `Hash` equal to
`CalculateHashWithNonce` recomputed at the found nonce and satisfying
`CheckHashDifficulty` at the block's difficulty. -/
theorem c2_mine_postcondition (b : Block) (fuel : Nat) (b' : Block) (a : Int)
    (hd : 0 ≤ b.Difficulty) (h : MineBlock b fuel = .found b' a) :
    b'.Hash = b'.CalculateHashWithNonce ∧
      CheckHashDifficulty b'.Hash b'.Difficulty = true := by
  rw [MineBlock, if_neg (by omega)] at h
  exact mineLoop_found_spec fuel b 0 a b' h

/-- A concrete difficulty-0 block. -/
def cB0 : Block :=
  { Index := 0, Timestamp := 0, Transactions := [], PreviousHash := "",
    Hash := "", Nonce := 0, Difficulty := 0 }

/-- The block `cB0` as mined on the first attempt. -/
def cB0mined : Block := { cB0 with Hash := cB0.CalculateHashWithNonce }

/-- Witness for **C2**: the hypotheses hold at the concrete difficulty-0
block `cB0` with one unit of fuel. -/
theorem c2_mine_postcondition_witness :
    cB0mined.Hash = cB0mined.CalculateHashWithNonce ∧
      CheckHashDifficulty cB0mined.Hash cB0mined.Difficulty = true :=
  c2_mine_postcondition cB0 1 cB0mined 1 (by decide) (by decide)

/-! ## Claim C7: `NewTransaction` error conditions -/

/-- **C7** — `NewTransaction` returns a transaction exactly when the
amount is positive and both addresses decode as hex; it errors on a
non-positive amount or a non-hex address. -/
theorem c7_newTransaction_ok_iff (fromAddr toAddr : String) (amount now : Int) :
    (NewTransaction fromAddr toAddr amount now).isSome =
      (decide (0 < amount) && (hexDecode fromAddr).isSome &&
        (hexDecode toAddr).isSome) := by
  rw [NewTransaction]
  by_cases ha : amount ≤ 0
  · have h0 : ¬ (0 < amount) := by omega
    simp [ha, h0]
  · have h0 : 0 < amount := by omega
    simp only [if_neg ha]
    cases hf : hexDecode fromAddr <;> cases ht : hexDecode toAddr <;>
      simp [h0]

end Stage3

namespace Common

/-! ## Hash-shape lemmas (used to rule the difficulty prefix out) -/

/-- `natToBytesAux` produces exactly `k` bytes. -/
theorem natToBytesAux_length (k : Nat) : ∀ n, (natToBytesAux k n).length = k := by
  induction k with
  | zero => intro n; rfl
  | succ m ih => intro n; simp [natToBytesAux, ih]

/-- A digest has 32 bytes. -/
theorem hash_length (data : Bytes) : (Hash data).length = 32 :=
  natToBytesAux_length 32 _

/-- Hex encoding doubles the length. -/
theorem bytesToHexChars_length (bs : Bytes) :
    (bytesToHexChars bs).length = 2 * bs.length := by
  induction bs with
  | nil => rfl
  | cons b rest ih => simp [bytesToHexChars, ih]; omega

/-- A hex-encoded digest string has 64 characters. -/
theorem hashString_data_length (s : String) : (HashString s).data.length = 64 := by
  show (bytesToHexChars (Hash (strBytes s))).length = 64
  rw [bytesToHexChars_length, hash_length]

/-- `int64wrap` is the identity inside the `int64` range. -/
theorem int64wrap_eq_self (x : Int) (h1 : -(2 ^ 63) ≤ x) (h2 : x < 2 ^ 63) :
    int64wrap x = x := by
  unfold int64wrap; omega

/-- Incrementing the largest `int64` wraps to the smallest. -/
theorem int64wrap_flip : int64wrap (2 ^ 63) = -(2 ^ 63) := by
  unfold int64wrap; decide

/-- `SetBytes` inverts `Bytes()`: the minimal big-endian encoding decodes
back to the encoded magnitude. -/
theorem bytesToNat_natBytesGo (fuel : Nat) :
    ∀ n, n ≤ fuel → bytesToNat (natBytesGo fuel n) = n := by
  induction fuel with
  | zero =>
    intro n hn
    interval_cases n
    rfl
  | succ m ih =>
    intro n hn
    rw [natBytesGo]
    by_cases h0 : n = 0
    · rw [if_pos h0, h0]
      rfl
    · rw [if_neg h0]
      have hdiv : n / 256 ≤ m := by
        have : n / 256 < n := Nat.div_lt_self (by omega) (by omega)
        omega
      rw [bytesToNat, List.foldl_append, ← bytesToNat, ih _ hdiv]
      show (n / 256) * 256 + n % 256 = n
      omega

/-- `SetBytes (n.Bytes()) = n`. -/
theorem bytesToNat_natBytes (n : Nat) : bytesToNat (natBytes n) = n :=
  bytesToNat_natBytesGo n n (le_refl n)

/-- A positive magnitude has a non-empty minimal encoding. -/
theorem natBytes_length_pos (n : Nat) (h : 0 < n) : 0 < (natBytes n).length := by
  cases n with
  | zero => omega
  | succ m =>
    show 0 < (natBytesGo (m + 1) (m + 1)).length
    rw [natBytesGo]
    simp

/-- The modelled sign-then-verify round trip of `common.Sign` /
`common.Verify`: it succeeds whenever the `r` and `s` encodings split
back evenly at the verifier's midpoint; without that condition the
verifier mis-splits or rejects the variable-length concatenation. -/
theorem verify_sign (priv : PrivKey) (data : Bytes)
    (hsev : sigSplitsEvenly priv.pub (Hash data) = true) :
    Verify priv.pub data (Sign priv data) = true := by
  simp only [sigSplitsEvenly, Bool.and_eq_true, decide_eq_true_eq] at hsev
  obtain ⟨hlen, hne⟩ := hsev
  rw [Verify, Sign]
  have hlen2 : (natBytes (sigRS priv.pub (Hash data)).1 ++
      natBytes (sigRS priv.pub (Hash data)).2).length =
      2 * (natBytes (sigRS priv.pub (Hash data)).1).length := by
    rw [List.length_append, ← hlen]
    omega
  rw [if_neg (by rw [hlen2]; omega)]
  have hhalf : (natBytes (sigRS priv.pub (Hash data)).1 ++
      natBytes (sigRS priv.pub (Hash data)).2).length / 2 =
      (natBytes (sigRS priv.pub (Hash data)).1).length := by
    rw [hlen2]
    omega
  rw [hhalf, List.take_left' rfl, List.drop_left' rfl,
    bytesToNat_natBytes, bytesToNat_natBytes]
  simp [ecdsaVerify]

end Common

namespace Stage2

open Common

/-- A 64-character hash string can never start with more than 64 `'0'`
characters, so the stage-2 difficulty check fails everywhere for
difficulties above 64. -/
theorem check_false_of_long (h : String) (d : Int)
    (hlen : h.data.length = 64) (hd : 64 < d.toNat) :
    CheckHashDifficulty h d = false := by
  show strHasPrefixGo h (repeatZero d.toNat) = false
  show (List.replicate d.toNat '0').isPrefixOf h.data = false
  by_contra hc
  have htrue : (List.replicate d.toNat '0').isPrefixOf h.data = true := by
    revert hc; cases hb : (List.replicate d.toNat '0').isPrefixOf h.data <;> simp
  have hp := List.isPrefixOf_iff_prefix.mp htrue
  have hle := hp.length_le
  rw [List.length_replicate, hlen] at hle
  omega

/-- If the difficulty check fails at every nonce, the stage-2 search
starting inside the non-negative `int64` range runs the nonce up to the
sign flip and aborts with the overflow error. -/
theorem mineLoop_exhausts (fuel : Nat) :
    ∀ (b : Block) (attempts : Int),
      (∀ n : Int,
        CheckHashDifficulty (CalculateHashWithNonce { b with Nonce := n }) b.Difficulty = false) →
      0 ≤ b.Nonce → b.Nonce < 2 ^ 63 →
      2 ^ 63 - b.Nonce.toNat ≤ fuel →
      mineLoop b attempts fuel = .overflowErr := by
  induction fuel with
  | zero =>
    intro b attempts _ h0 hlt hfuel
    omega
  | succ f ih =>
    intro b attempts hfail h0 hlt hfuel
    rw [mineLoop]
    have hcheck : CheckHashDifficulty (CalculateHashWithNonce b) b.Difficulty = false :=
      hfail b.Nonce
    rw [hcheck]
    simp only [Bool.false_eq_true, if_false]
    by_cases hend : b.Nonce = 2 ^ 63 - 1
    · have hw : int64wrap (b.Nonce + 1) = -(2 ^ 63) := by
        rw [hend]; simpa using int64wrap_flip
      simp only [hw]
      norm_num
    · have hw : int64wrap (b.Nonce + 1) = b.Nonce + 1 :=
        int64wrap_eq_self _ (by omega) (by omega)
      simp only [hw]
      have hnn : ¬ (b.Nonce + 1 < 0) := by omega
      simp only [if_neg hnn]
      refine ih _ _ hfail ?_ ?_ ?_
      · show 0 ≤ b.Nonce + 1
        omega
      · show b.Nonce + 1 < 2 ^ 63
        omega
      · show 2 ^ 63 - (b.Nonce + 1).toNat ≤ f
        omega

end Stage2

/-- A concrete stage-2 block (fields irrelevant: `MineBlock` resets nonce
and difficulty). -/
def cSB : Stage2.Block :=
  { Index := 0, Timestamp := 0, Data := "", PreviousHash := "", Hash := "",
    Nonce := 0, Difficulty := 0 }

/-- A concrete stage-3 block poised at the largest `int64` nonce, with a
difficulty (65) that no 64-character hash can satisfy. -/
def cOvB : Stage3.Block :=
  { Index := 0, Timestamp := 0, Transactions := [], PreviousHash := "",
    Hash := "", Nonce := 2 ^ 63 - 1, Difficulty := 65 }

/-- **C8 (counterexample)** — the stage-3 miner (cited by the claim) does
*not* return an error at nonce exhaustion: started at the largest `int64`
nonce with an unsatisfiable difficulty, it keeps searching with the
wrapped negative nonce (`-2⁶³`, `-2⁶³+1`, …) instead of erroring. -/
theorem c8_counterexample :
    Stage3.MineBlock cOvB 3 =
      .fuelOut { cOvB with Nonce := -(2 ^ 63) + 2 } 3 ∧
    ((-(2 ^ 63) + 2 : Int) < 0) := by decide

/-- **C8 (amended)** — only the stage-2 miner handles nonce overflow: if
the difficulty check fails at every nonce, stage-2 `MineBlock` (which
starts at nonce 0) reports the overflow error at the sign flip; the
stage-3 miner instead continues searching with the wrapped negative
nonce after the sign flip. -/
theorem c8_overflow_behaviour :
    (∀ (b : Stage2.Block) (d : Int) (fuel : Nat),
      0 ≤ d →
      (∀ n : Int, Stage2.CheckHashDifficulty
        (Stage2.CalculateHashWithNonce { b with Difficulty := d, Nonce := n }) d = false) →
      2 ^ 63 ≤ fuel →
      Stage2.MineBlock b d fuel = .overflowErr) ∧
    (∀ (b : Stage3.Block) (attempts : Int) (fuel : Nat),
      b.Nonce = 2 ^ 63 - 1 →
      Stage3.CheckHashDifficulty b.CalculateHashWithNonce b.Difficulty = false →
      Stage3.mineLoop b attempts (fuel + 1) =
        Stage3.mineLoop { b with Nonce := -(2 ^ 63) } (attempts + 1) fuel) := by
  constructor
  · intro b d fuel hd hfail hfuel
    rw [Stage2.MineBlock, if_neg (by omega)]
    refine Stage2.mineLoop_exhausts fuel _ 0 hfail ?_ ?_ ?_
    · show (0 : Int) ≤ 0
      norm_num
    · show (0 : Int) < 2 ^ 63
      norm_num
    · show 2 ^ 63 - (0 : Int).toNat ≤ fuel
      simpa using hfuel
  · intro b attempts fuel hn hfail
    rw [Stage3.mineLoop, hfail]
    simp only [Bool.false_eq_true, if_false]
    have hw : Common.int64wrap (b.Nonce + 1) = -(2 ^ 63) := by
      rw [hn]; simpa using Common.int64wrap_flip
    rw [hw]

/-- Witness for **C8 (amended)**: both parts applied at concrete inputs —
stage 2 at difficulty 65 with ample fuel, stage 3 at the block `cOvB`. -/
theorem c8_overflow_behaviour_witness :
    Stage2.MineBlock cSB 65 (2 ^ 63) = .overflowErr ∧
    Stage3.mineLoop cOvB 0 1 = Stage3.mineLoop { cOvB with Nonce := -(2 ^ 63) } 1 0 :=
  ⟨c8_overflow_behaviour.1 cSB 65 (2 ^ 63) (by decide)
      (fun _ => Stage2.check_false_of_long _ _ (Common.hashString_data_length _) (by decide))
      (le_refl _),
    c8_overflow_behaviour.2 cOvB 0 0 (by decide) (by decide)⟩

namespace Stage3

/-! ## Claim C3: mine-and-append and difficulty retargeting -/

/-- A difficulty-0 filler block for concrete chains. -/
def c3Block (i : Int) : Block :=
  { Index := i, Timestamp := i, Transactions := [], PreviousHash := "",
    Hash := "", Nonce := 0, Difficulty := 0 }

/-- A nine-block stage-3 chain (difficulty 0, timestamps one second
apart), one short of the adjustment interval. -/
def cChain9 : Blockchain :=
  { Blocks := [c3Block 0, c3Block 1, c3Block 2, c3Block 3, c3Block 4,
      c3Block 5, c3Block 6, c3Block 7, c3Block 8], Difficulty := 0 }

/-- The block `Blockchain.MineBlock cChain9 [] 9 1` builds and mines. -/
def cMineB : Block := NewBlock 9 [] "" 0 9

/-- That block as mined on the first attempt (difficulty 0). -/
def cMined : Block := { cMineB with Hash := cMineB.CalculateHashWithNonce }

/-- The chain after the append: ten blocks, difficulty still 0. -/
def cChain10 : Blockchain :=
  { Blocks := cChain9.Blocks ++ [cMined], Difficulty := 0 }

/-- **C3 (counterexample)** — after a successful stage-3 mine-and-append
that grows the chain to length 10, `should_adjust` holds and
`calculate_next` (§4.5, transliterated) yields difficulty 1, yet the
chain's difficulty is still the old value 0: stage-3 `Blockchain.MineBlock`
performs no retargeting. -/
theorem c3_counterexample :
    (Blockchain.MineBlock cChain9 [] 9 1).chain? = some cChain10 ∧
    cChain10.Difficulty = 0 ∧
    ShouldAdjustSpec cChain10 = true ∧
    CalculateDifficultySpec cChain10 Stage2.TargetBlockTime = 1 ∧
    (0 : Int) ≠ 1 := by
  refine ⟨by decide, by decide, by decide, ?_, by decide⟩
  have havg : GetAverageBlockTimeSpec cChain10 10 = 1 := by
    show ((9 : Int) : ℚ) / ((9 : Int) : ℚ) = 1
    norm_num
  have hc : CalculateDifficultySpec cChain10 Stage2.TargetBlockTime =
      Stage2.AdjustDifficulty 0 (GetAverageBlockTimeSpec cChain10 10) ((10 : Int) : ℚ) := rfl
  rw [hc, havg]
  norm_num [Stage2.AdjustDifficulty, Stage2.ceilLog2Clamped,
    Stage2.MaxAdjustmentFactor, Stage2.MinDifficulty, Stage2.MaxDifficulty]

/-- **C3 (amended)** — a successful stage-3 `Blockchain.MineBlock`
appends the mined block and always leaves the chain's difficulty
unchanged; the retargeting described by the claim is performed only by
the stage-2 `Blockchain.AddBlock`, which, after appending, replaces the
difficulty with `CalculateDifficulty` of the grown chain exactly when
`ShouldAdjustDifficulty` holds for it. -/
theorem c3_append_and_retarget :
    (∀ (bc : Blockchain) (txs : List Transaction) (now : Int) (fuel : Nat)
        (b' : Block) (bc' : Blockchain) (a : Int),
      Blockchain.MineBlock bc txs now fuel = .ok b' bc' a →
      bc'.Blocks = bc.Blocks ++ [b'] ∧ bc'.Difficulty = bc.Difficulty) ∧
    (∀ (bc : Stage2.Blockchain) (data : String) (now : Int) (fuel : Nat)
        (bc' : Stage2.Blockchain) (a : Int),
      Stage2.Blockchain.AddBlock bc data now fuel = .ok bc' a →
      ∃ b, bc'.Blocks = bc.Blocks ++ [b] ∧
        bc'.Difficulty =
          (if Stage2.ShouldAdjustDifficulty { bc with Blocks := bc.Blocks ++ [b] } then
            Stage2.CalculateDifficulty { bc with Blocks := bc.Blocks ++ [b] } bc.TargetBlockTime
          else bc.Difficulty)) := by
  constructor
  · intro bc txs now fuel b' bc' a h
    rw [Blockchain.MineBlock] at h
    cases hl : bc.Blocks.getLast? with
    | none => rw [hl] at h; simp at h
    | some lastB =>
      rw [hl] at h
      dsimp only at h
      cases hm : Stage3.MineBlock (NewBlock (lastB.Index + 1) txs lastB.Hash bc.Difficulty now) fuel with
      | found b a2 =>
        rw [hm] at h
        dsimp only at h
        cases h
        exact ⟨rfl, rfl⟩
      | fuelOut b att => rw [hm] at h; simp at h
      | invalidDifficulty => rw [hm] at h; simp at h
  · intro bc data now fuel bc' a h
    rw [Stage2.Blockchain.AddBlock] at h
    cases hl : bc.Blocks.getLast? with
    | none => rw [hl] at h; simp at h
    | some prevB =>
      rw [hl] at h
      dsimp only at h
      cases hm : Stage2.MineBlock (Stage2.NewBlock (prevB.Index + 1) data prevB.Hash bc.Difficulty now) bc.Difficulty fuel with
      | found b a2 =>
        rw [hm] at h
        dsimp only at h
        by_cases hs : Stage2.ShouldAdjustDifficulty { bc with Blocks := bc.Blocks ++ [b] }
        · rw [if_pos hs] at h
          cases h
          exact ⟨b, rfl, by rw [if_pos hs]⟩
        · rw [if_neg hs] at h
          cases h
          exact ⟨b, rfl, by rw [if_neg hs]⟩
      | fuelOut b att => rw [hm] at h; simp at h
      | overflowErr => rw [hm] at h; simp at h
      | invalidDifficulty => rw [hm] at h; simp at h

/-- A concrete stage-2 genesis block. -/
def cS2g : Stage2.Block :=
  { Index := 0, Timestamp := 0, Data := "g", PreviousHash := "", Hash := "",
    Nonce := 0, Difficulty := 0 }

/-- A concrete one-block stage-2 chain at difficulty 0. -/
def cS2chain : Stage2.Blockchain :=
  { Blocks := [cS2g], Difficulty := 0, TargetBlockTime := 10 }

/-- The block `AddBlock cS2chain "x" 5 1` builds. -/
def cS2new : Stage2.Block := Stage2.NewBlock 1 "x" "" 0 5

/-- That block as mined on the first attempt (difficulty 0). -/
def cS2mined : Stage2.Block :=
  { cS2new with Hash := Stage2.CalculateHashWithNonce cS2new }

/-- The stage-2 chain after the append (below the adjustment interval,
so the difficulty stays 0). -/
def cS2after : Stage2.Blockchain :=
  { Blocks := [cS2g, cS2mined], Difficulty := 0, TargetBlockTime := 10 }

/-- Witness for **C3 (amended)**: both parts applied at concrete chains. -/
theorem c3_append_and_retarget_witness :
    (cChain10.Blocks = cChain9.Blocks ++ [cMined] ∧
      cChain10.Difficulty = cChain9.Difficulty) ∧
    (∃ b, cS2after.Blocks = cS2chain.Blocks ++ [b] ∧
      cS2after.Difficulty =
        (if Stage2.ShouldAdjustDifficulty { cS2chain with Blocks := cS2chain.Blocks ++ [b] } then
          Stage2.CalculateDifficulty { cS2chain with Blocks := cS2chain.Blocks ++ [b] }
            cS2chain.TargetBlockTime
        else cS2chain.Difficulty)) :=
  ⟨c3_append_and_retarget.1 cChain9 [] 9 1 cMined cChain10 1 (by decide),
    c3_append_and_retarget.2 cS2chain "x" 5 1 cS2after 1 (by decide)⟩

end Stage3

namespace Stage3

/-! ## Claim C5: characterization of `Blockchain.IsValid` -/

/-- Unfolding of one `IsValid` loop iteration into its four checks. -/
theorem linkOK_iff (prev b : Block) :
    linkOK prev b = true ↔
      b.Validate = true ∧ b.Index = prev.Index + 1 ∧
        b.PreviousHash = prev.Hash ∧ prev.Timestamp ≤ b.Timestamp := by
  simp [linkOK, Bool.and_eq_true, not_lt, and_assoc]

/-- The `IsValid` loop over the non-genesis blocks, characterized by the
per-position conditions of the claim. -/
theorem linkedFrom_iff (l : List Block) : ∀ prev : Block,
    linkedFrom prev l = true ↔
      ∀ i (hi : i < l.length),
        (l.get ⟨i, hi⟩).Validate = true ∧
        (l.get ⟨i, hi⟩).Index = ((prev :: l).get ⟨i, Nat.lt_succ_of_lt hi⟩).Index + 1 ∧
        (l.get ⟨i, hi⟩).PreviousHash = ((prev :: l).get ⟨i, Nat.lt_succ_of_lt hi⟩).Hash ∧
        ((prev :: l).get ⟨i, Nat.lt_succ_of_lt hi⟩).Timestamp ≤ (l.get ⟨i, hi⟩).Timestamp := by
  induction l with
  | nil => intro prev; simp [linkedFrom]
  | cons b rest ih =>
    intro prev
    rw [linkedFrom]
    constructor
    · intro h i hi
      have h1 : linkOK prev b = true ∧ linkedFrom b rest = true := by
        simpa [Bool.and_eq_true] using h
      match i with
      | 0 => simpa using (linkOK_iff _ _).mp h1.1
      | j + 1 =>
        have hj : j < rest.length := by simpa using hi
        have := (ih b).mp h1.2 j hj
        simpa using this
    · intro h
      have hb : linkOK prev b = true := (linkOK_iff _ _).mpr (by simpa using h 0 (by simp))
      have hrest : linkedFrom b rest = true := by
        apply (ih b).mpr
        intro j hj
        have := h (j + 1) (by simpa using Nat.succ_lt_succ hj)
        simpa using this
      simp [Bool.and_eq_true, hb, hrest]

/-- **C5** — `Blockchain.IsValid` is true exactly when: the chain is
non-empty; the first block has index 0, empty previous hash, and passes
block validation; and every later block passes validation, links to its
predecessor's hash, continues the index sequence, and does not decrease
the timestamp. -/
theorem c5_isValid_characterization (bc : Blockchain) :
    bc.IsValid = true ↔
      bc.Blocks ≠ [] ∧
      (∀ h0 : 0 < bc.Blocks.length,
        (bc.Blocks.get ⟨0, h0⟩).Index = 0 ∧
        (bc.Blocks.get ⟨0, h0⟩).PreviousHash = "") ∧
      (∀ i (hi : i < bc.Blocks.length), (bc.Blocks.get ⟨i, hi⟩).Validate = true) ∧
      (∀ i (hi : i + 1 < bc.Blocks.length),
        (bc.Blocks.get ⟨i + 1, hi⟩).PreviousHash =
          (bc.Blocks.get ⟨i, Nat.lt_of_succ_lt hi⟩).Hash ∧
        (bc.Blocks.get ⟨i + 1, hi⟩).Index =
          (bc.Blocks.get ⟨i, Nat.lt_of_succ_lt hi⟩).Index + 1 ∧
        (bc.Blocks.get ⟨i, Nat.lt_of_succ_lt hi⟩).Timestamp ≤
          (bc.Blocks.get ⟨i + 1, hi⟩).Timestamp) := by
  rcases bc with ⟨blocks, diff⟩
  cases blocks with
  | nil => simp [Blockchain.IsValid]
  | cons b0 rest =>
    show (b0.Index == 0 && b0.PreviousHash == "" && b0.Validate && linkedFrom b0 rest) = true ↔ _
    rw [Bool.and_eq_true, Bool.and_eq_true, Bool.and_eq_true, beq_iff_eq, beq_iff_eq,
      linkedFrom_iff]
    constructor
    · rintro ⟨⟨⟨hidx, hprev⟩, hval⟩, hlink⟩
      refine ⟨by simp, fun _ => ⟨hidx, hprev⟩, ?_, ?_⟩
      · intro i hi
        match i with
        | 0 => simpa using hval
        | j + 1 =>
          have hj : j < rest.length := by simpa using hi
          simpa using (hlink j hj).1
      · intro i hi
        have hj : i < rest.length := by simpa using hi
        have h4 := hlink i hj
        exact ⟨by simpa using h4.2.2.1, by simpa using h4.2.1, by simpa using h4.2.2.2⟩
    · rintro ⟨-, hgen, hval, hpairs⟩
      have hg := hgen (by simp)
      refine ⟨⟨⟨by simpa using hg.1, by simpa using hg.2⟩, by simpa using hval 0 (by simp)⟩, ?_⟩
      intro j hj
      have hv := hval (j + 1) (by simpa using Nat.succ_lt_succ hj)
      have hp := hpairs j (by simpa using Nat.succ_lt_succ hj)
      exact ⟨by simpa using hv, by simpa using hp.2.1, by simpa using hp.1,
        by simpa using hp.2.2⟩

end Stage3

namespace Stage3

/-! ## Claim C10: mine-and-append never inspects the transactions -/

/-- The nonce search only ever touches the `Nonce` and `Hash` fields. -/
theorem mineLoop_found_fields (fuel : Nat) :
    ∀ (b : Block) (attempts a : Int) (b' : Block),
      mineLoop b attempts fuel = .found b' a →
      b'.Index = b.Index ∧ b'.Timestamp = b.Timestamp ∧
        b'.Transactions = b.Transactions ∧ b'.PreviousHash = b.PreviousHash ∧
        b'.Difficulty = b.Difficulty := by
  induction fuel with
  | zero => intro b attempts a b' h; simp [mineLoop] at h
  | succ n ih =>
    intro b attempts a b' h
    rw [mineLoop] at h
    by_cases hc : CheckHashDifficulty b.CalculateHashWithNonce b.Difficulty
    · simp only [hc, if_true] at h
      cases h
      exact ⟨rfl, rfl, rfl, rfl, rfl⟩
    · simp only [hc, Bool.false_eq_true, if_false] at h
      have hrec := ih _ _ _ _ h
      exact ⟨hrec.1, hrec.2.1, hrec.2.2.1, hrec.2.2.2.1, hrec.2.2.2.2⟩

/-- A block coming out of a successful nonce search passes
`Block.Validate`. -/
theorem validate_of_found (fuel : Nat) (b : Block) (attempts a : Int) (b' : Block)
    (h : mineLoop b attempts fuel = .found b' a) : b'.Validate = true := by
  obtain ⟨h1, h2⟩ := mineLoop_found_spec fuel b attempts a b' h
  rw [h1] at h2
  simp [Block.Validate, ValidateProofOfWork, h1, h2]

/-- `getLast?` of a cons in terms of the tail's `getLast?`. -/
theorem getLast?_cons_getD (l : List Block) : ∀ a : Block,
    (a :: l).getLast? = some (l.getLast?.getD a) := by
  induction l with
  | nil => intro a; simp
  | cons c cs ih => intro a; simp [List.getLast?_cons_cons, ih c]

/-- `linkedFrom` over a snoc splits into the old loop plus one final
link check against the last element. -/
theorem linkedFrom_append (b : Block) (l : List Block) : ∀ prev : Block,
    linkedFrom prev (l ++ [b]) =
      (linkedFrom prev l && linkOK (l.getLast?.getD prev) b) := by
  induction l with
  | nil => intro prev; simp [linkedFrom]
  | cons c rest ih =>
    intro prev
    show (linkOK prev c && linkedFrom c (rest ++ [b])) = _
    rw [ih c]
    have hlast : (c :: rest).getLast?.getD prev = rest.getLast?.getD c := by
      rw [getLast?_cons_getD]; rfl
    rw [hlast, ← Bool.and_assoc]
    rfl

/-- **C10** — for every valid stage-3 chain and *arbitrary* transaction
list (unsigned, dangling references, anything), a successful
`Blockchain.MineBlock` appends a block carrying the transactions
verbatim, and the grown chain still satisfies `IsValid`: neither append
nor chain validation inspects signatures or input references.  (`now` is
the wall clock passed to block construction; the clock must not run
behind the tip's timestamp.) -/
theorem c10_mine_append_preserves_validity (bc : Blockchain)
    (txs : List Transaction) (now : Int) (fuel : Nat) (b' : Block)
    (bc' : Blockchain) (a : Int)
    (hvalid : bc.IsValid = true)
    (hnow : ∀ lastB, bc.Blocks.getLast? = some lastB → lastB.Timestamp ≤ now)
    (hmine : Blockchain.MineBlock bc txs now fuel = .ok b' bc' a) :
    bc'.Blocks = bc.Blocks ++ [b'] ∧ b'.Transactions = txs ∧ bc'.IsValid = true := by
  rcases bc with ⟨blocks, diff⟩
  rw [Blockchain.MineBlock] at hmine
  cases hl : blocks.getLast? with
  | none => rw [hl] at hmine; simp at hmine
  | some lastB =>
    rw [hl] at hmine
    dsimp only at hmine
    cases hm : Stage3.MineBlock (NewBlock (lastB.Index + 1) txs lastB.Hash diff now) fuel with
    | fuelOut bf af => rw [hm] at hmine; simp at hmine
    | invalidDifficulty => rw [hm] at hmine; simp at hmine
    | found bf af =>
      rw [hm] at hmine
      dsimp only at hmine
      cases hmine
      rw [Stage3.MineBlock] at hm
      rw [show (NewBlock (lastB.Index + 1) txs lastB.Hash diff now).Difficulty = diff from rfl] at hm
      by_cases hd : diff < 0
      · rw [if_pos hd] at hm; simp at hm
      rw [if_neg hd] at hm
      have hfields := mineLoop_found_fields fuel _ 0 a b' hm
      have hval' := validate_of_found fuel _ 0 a b' hm
      have htxs : b'.Transactions = txs := by simpa using hfields.2.2.1
      refine ⟨rfl, htxs, ?_⟩
      cases blocks with
      | nil => simp at hl
      | cons b0 rest =>
        have hv : (b0.Index == 0 && b0.PreviousHash == "" && b0.Validate &&
            linkedFrom b0 rest) = true := hvalid
        have hlastB : lastB = rest.getLast?.getD b0 := by
          rw [getLast?_cons_getD] at hl
          exact (Option.some.inj hl).symm
        have hlink : linkOK lastB b' = true := by
          refine (linkOK_iff _ _).mpr ⟨hval', ?_, ?_, ?_⟩
          · simpa using hfields.1
          · simpa using hfields.2.2.2.1
          · have hts : b'.Timestamp = now := by simpa using hfields.2.1
            rw [hts]
            exact hnow lastB hl
        show (b0.Index == 0 && b0.PreviousHash == "" && b0.Validate &&
            linkedFrom b0 (rest ++ [b'])) = true
        rw [linkedFrom_append, ← hlastB, hlink]
        rw [Bool.and_eq_true, Bool.and_eq_true, Bool.and_eq_true] at hv ⊢
        exact ⟨hv.1, by simp [hv.2]⟩

end Stage3

namespace Stage3

/-- An unsigned non-coinbase transaction whose single input references a
transaction that exists nowhere. -/
def cGarbageTx : Transaction :=
  { ID := [9, 9],
    Inputs := [{ TxID := [1, 2], OutIndex := 0, Signature := [], PubKey := [] }],
    Outputs := [{ Value := 5, PubKeyHash := [3] }],
    Timestamp := 0 }

/-- A concrete valid one-block chain (its block is `cB0` as mined). -/
def cVC : Blockchain := { Blocks := [cB0mined], Difficulty := 0 }

/-- The block built on top of `cVC` carrying the garbage transaction. -/
def cVNewB : Block := NewBlock 1 [cGarbageTx] cB0mined.Hash 0 1

/-- That block as mined on the first attempt (difficulty 0). -/
def cVB : Block := { cVNewB with Hash := cVNewB.CalculateHashWithNonce }

/-- The grown chain. -/
def cVC2 : Blockchain := { Blocks := [cB0mined, cVB], Difficulty := 0 }

set_option maxRecDepth 4000 in
/-- Witness for **C10**: a valid one-block chain extended with an
unsigned dangling-reference transaction still validates. -/
theorem c10_mine_append_preserves_validity_witness :
    cVC2.Blocks = cVC.Blocks ++ [cVB] ∧ cVB.Transactions = [cGarbageTx] ∧
      cVC2.IsValid = true :=
  c10_mine_append_preserves_validity cVC [cGarbageTx] 1 1 cVB cVC2 1
    (by decide)
    (by
      intro lastB hl
      simp only [cVC, List.getLast?_singleton, Option.some.injEq] at hl
      rw [← hl]
      decide)
    (by decide)

end Stage3

namespace Stage3

open Common

/-! ## Claim C9: `FindSpendableOutputs` -/

/-- The value total the walk accumulates over a UTXO list. -/
def sumValues (l : List UTXO) : Int :=
  l.foldl (fun acc u => acc + u.Output.Value) 0

/-- The selection map accumulated over a UTXO list from a given map. -/
def selFold (m : String → List Int) (l : List UTXO) : String → List Int :=
  l.foldl selStep m

/-- The prefix of the stored list that the `FindSpendableOutputs` walk
visits: elements in order, up to and including the first element at which
the accumulated value reaches the requested amount — the whole list when
the total never reaches it. -/
def spendPrefix (amount : Int) : List UTXO → List UTXO
  | [] => []
  | u :: rest =>
    if amount ≤ u.Output.Value then [u]
    else u :: spendPrefix (amount - u.Output.Value) rest

/-- Unfolding equation of `spendLoop` on a cons cell. -/
theorem spendLoop_cons (amount : Int) (u : UTXO) (rest : List UTXO) (acc : Int)
    (m : String → List Int) :
    spendLoop amount (u :: rest) acc m =
      if amount ≤ acc + u.Output.Value then (acc + u.Output.Value, selStep m u)
      else spendLoop amount rest (acc + u.Output.Value) (selStep m u) := rfl

/-- Unfolding equation of `spendPrefix` on a cons cell. -/
theorem spendPrefix_cons (a : Int) (u : UTXO) (rest : List UTXO) :
    spendPrefix a (u :: rest) =
      if a ≤ u.Output.Value then [u]
      else u :: spendPrefix (a - u.Output.Value) rest := rfl

/-- Shifting the start value out of the value fold. -/
theorem foldl_add_shift (l : List UTXO) : ∀ acc : Int,
    List.foldl (fun a u => a + u.Output.Value) acc l =
      acc + List.foldl (fun a u => a + u.Output.Value) 0 l := by
  induction l with
  | nil => intro acc; simp
  | cons u rest ih =>
    intro acc
    rw [List.foldl_cons, List.foldl_cons, ih (acc + u.Output.Value),
      ih (0 + u.Output.Value)]
    ring

/-- `sumValues` on a cons cell. -/
theorem sumValues_cons (u : UTXO) (rest : List UTXO) :
    sumValues (u :: rest) = u.Output.Value + sumValues rest := by
  show List.foldl _ 0 (u :: rest) = _
  rw [List.foldl_cons, foldl_add_shift]
  simp [sumValues]

/-- `sumValues` of a list of non-negative outputs is non-negative. -/
theorem sumValues_nonneg (l : List UTXO) (h : ∀ u ∈ l, 0 ≤ u.Output.Value) :
    0 ≤ sumValues l := by
  induction l with
  | nil => simp [sumValues]
  | cons u rest ih =>
    rw [sumValues_cons]
    have h1 := h u (by simp)
    have h2 := ih fun u' hu => h u' (List.mem_cons_of_mem _ hu)
    omega

/-- Shifting the start map out of the selection fold. -/
theorem selFold_shift (l : List UTXO) : ∀ (m : String → List Int) (k : String),
    selFold m l k = m k ++ selFold (fun _ => []) l k := by
  induction l with
  | nil => intro m k; simp [selFold]
  | cons u rest ih =>
    intro m k
    show selFold (selStep m u) rest k = _
    rw [ih (selStep m u) k,
      show selFold (fun _ => []) (u :: rest) k =
        selFold (selStep (fun _ => []) u) rest k from rfl,
      ih (selStep (fun _ => []) u) k]
    by_cases hk : k = BytesToHex u.TxID <;> simp [selStep, hk]

/-- The walk of `spendLoop` computes the value total and the selection
map of exactly the `spendPrefix` of the remaining list, relative to the
accumulated state. -/
theorem spendLoop_spec (l : List UTXO) : ∀ (amount acc : Int) (m : String → List Int),
    (spendLoop amount l acc m).1 = acc + sumValues (spendPrefix (amount - acc) l) ∧
    ∀ k, (spendLoop amount l acc m).2 k =
      m k ++ selFold (fun _ => []) (spendPrefix (amount - acc) l) k := by
  induction l with
  | nil =>
    intro amount acc m
    exact ⟨by simp [spendLoop, spendPrefix, sumValues], fun k => by
      simp [spendLoop, spendPrefix, selFold]⟩
  | cons u rest ih =>
    intro amount acc m
    rw [spendLoop_cons]
    by_cases hstop : amount ≤ acc + u.Output.Value
    · rw [if_pos hstop]
      have hpre : spendPrefix (amount - acc) (u :: rest) = [u] := by
        rw [spendPrefix_cons, if_pos (by omega)]
      rw [hpre]
      constructor
      · have h1 : sumValues [u] = u.Output.Value := by
          rw [show ([u] : List UTXO) = u :: [] from rfl, sumValues_cons]
          simp [sumValues]
        show acc + u.Output.Value = acc + sumValues [u]
        omega
      · intro k
        show selStep m u k = m k ++ selFold (fun _ => []) [u] k
        rw [show selFold (fun _ => []) [u] k = selStep (fun _ => []) u k from rfl]
        by_cases hk : k = BytesToHex u.TxID <;> simp [selStep, hk]
    · rw [if_neg hstop]
      have hpre : spendPrefix (amount - acc) (u :: rest) =
          u :: spendPrefix (amount - acc - u.Output.Value) rest := by
        rw [spendPrefix_cons, if_neg (by omega)]
      obtain ⟨ih1, ih2⟩ := ih amount (acc + u.Output.Value) (selStep m u)
      have harg : amount - (acc + u.Output.Value) = amount - acc - u.Output.Value := by ring
      constructor
      · rw [ih1, harg, hpre, sumValues_cons]
        ring
      · intro k
        have hr : selFold (fun _ => [])
            (u :: spendPrefix (amount - acc - u.Output.Value) rest) k =
            selStep (fun _ => []) u k ++
              selFold (fun _ => []) (spendPrefix (amount - acc - u.Output.Value) rest) k := by
          rw [show selFold (fun _ => [])
              (u :: spendPrefix (amount - acc - u.Output.Value) rest) k =
            selFold (selStep (fun _ => []) u)
              (spendPrefix (amount - acc - u.Output.Value) rest) k from rfl,
            selFold_shift]
        rw [ih2 k, harg, hpre, hr]
        by_cases hk : k = BytesToHex u.TxID <;> simp [selStep, hk]

/-- `spendPrefix` is a prefix of the list: the walk visits the stored
order. -/
theorem spendPrefix_isPrefix (l : List UTXO) : ∀ a : Int, spendPrefix a l <+: l := by
  induction l with
  | nil => intro a; simp [spendPrefix]
  | cons u rest ih =>
    intro a
    rw [spendPrefix_cons]
    by_cases h : a ≤ u.Output.Value
    · rw [if_pos h]; exact ⟨rest, rfl⟩
    · rw [if_neg h]
      obtain ⟨t, ht⟩ := ih (a - u.Output.Value)
      exact ⟨t, by simp [ht]⟩

/-- Every accumulated total strictly inside the walked prefix is below
the requested amount: the walk stops at the first element at which the
total reaches the amount, never later. -/
theorem spendPrefix_take_lt (l : List UTXO) : ∀ (a : Int) (i : Nat), 0 < i →
    i < (spendPrefix a l).length → sumValues ((spendPrefix a l).take i) < a := by
  induction l with
  | nil => intro a i h1 h2; simp [spendPrefix] at h2
  | cons u rest ih =>
    intro a i h1 h2
    rw [spendPrefix_cons] at h2 ⊢
    by_cases h : a ≤ u.Output.Value
    · rw [if_pos h] at h2; simp at h2; omega
    · rw [if_neg h] at h2 ⊢
      match i with
      | j + 1 =>
        have hlen : j < (spendPrefix (a - u.Output.Value) rest).length := by
          simpa using h2
        rw [List.take_succ_cons, sumValues_cons]
        rcases Nat.eq_zero_or_pos j with hj | hj
        · subst hj; simp only [List.take_zero]
          have : sumValues [] = 0 := rfl
          omega
        · have hrec := ih (a - u.Output.Value) j hj hlen
          omega

/-- When the total of a non-negative list stays below the amount, the
walk visits the whole list. -/
theorem spendPrefix_full (l : List UTXO) : ∀ a : Int,
    (∀ u ∈ l, 0 ≤ u.Output.Value) → sumValues l < a → spendPrefix a l = l := by
  induction l with
  | nil => intro a _ _; rfl
  | cons u rest ih =>
    intro a hpos hsum
    rw [sumValues_cons] at hsum
    have hrestpos : ∀ u' ∈ rest, 0 ≤ u'.Output.Value :=
      fun u' hu => hpos u' (List.mem_cons_of_mem _ hu)
    have hnn : 0 ≤ sumValues rest := sumValues_nonneg rest hrestpos
    rw [spendPrefix_cons, if_neg (by omega), ih (a - u.Output.Value) hrestpos (by omega)]

/-- **C9** — `FindSpendableOutputs` walks the address's stored UTXO list
in order and returns, always (never failing), the accumulated total and
selection map of exactly the prefix up to the first element at which the
total reaches the amount: the returned total and map are those of
`spendPrefix`; that prefix is an in-order prefix of the stored list;
every shorter non-empty prefix totals below the amount; an address with
no UTXOs yields `(0, ∅)`; and when the address's balance (over
non-negative outputs) is below the amount, the full list is selected and
the total equals `GetBalance`. -/
theorem c9_findSpendableOutputs_spec (us : UTXOSet) (address : String) (amount : Int) :
    (us.FindSpendableOutputs address amount).1 =
      sumValues (spendPrefix amount (us.UTXOs address)) ∧
    (∀ k, (us.FindSpendableOutputs address amount).2 k =
      selFold (fun _ => []) (spendPrefix amount (us.UTXOs address)) k) ∧
    spendPrefix amount (us.UTXOs address) <+: us.UTXOs address ∧
    (∀ i, 0 < i → i < (spendPrefix amount (us.UTXOs address)).length →
      sumValues ((spendPrefix amount (us.UTXOs address)).take i) < amount) ∧
    (us.UTXOs address = [] →
      us.FindSpendableOutputs address amount = (0, fun _ => [])) ∧
    ((∀ u ∈ us.UTXOs address, 0 ≤ u.Output.Value) →
      us.GetBalance address < amount →
      spendPrefix amount (us.UTXOs address) = us.UTXOs address ∧
      (us.FindSpendableOutputs address amount).1 = us.GetBalance address) := by
  have hbal : us.GetBalance address = sumValues (us.UTXOs address) := rfl
  have h0 : amount - 0 = amount := by ring
  obtain ⟨h1, h2⟩ := spendLoop_spec (us.UTXOs address) amount 0 (fun _ => [])
  rw [h0] at h1 h2
  refine ⟨by rw [show (us.FindSpendableOutputs address amount) =
      spendLoop amount (us.UTXOs address) 0 (fun _ => []) from rfl, h1]; ring,
    ?_, spendPrefix_isPrefix _ amount, spendPrefix_take_lt _ amount, ?_, ?_⟩
  · intro k
    rw [show (us.FindSpendableOutputs address amount) =
      spendLoop amount (us.UTXOs address) 0 (fun _ => []) from rfl, h2 k]
    simp
  · intro hnil
    rw [show (us.FindSpendableOutputs address amount) =
      spendLoop amount (us.UTXOs address) 0 (fun _ => []) from rfl, hnil]
    rfl
  · intro hpos hlt
    rw [hbal] at hlt
    have hfull := spendPrefix_full (us.UTXOs address) amount hpos hlt
    refine ⟨hfull, ?_⟩
    rw [show (us.FindSpendableOutputs address amount) =
      spendLoop amount (us.UTXOs address) 0 (fun _ => []) from rfl, h1, hfull, hbal]
    ring

/-- Two concrete 50-coin UTXOs. -/
def cU1 : UTXO := { TxID := [1], OutIndex := 0, Output := { Value := 50, PubKeyHash := [170] } }

/-- Second concrete UTXO. -/
def cU2 : UTXO := { TxID := [2], OutIndex := 1, Output := { Value := 50, PubKeyHash := [170] } }

/-- A concrete UTXO set: address `"aa"` holds two 50-coin outputs. -/
def cUS : UTXOSet := { UTXOs := fun a => if a = "aa" then [cU1, cU2] else [] }

/-- Witness for **C9**: requesting 120 coins from a 100-coin address
returns the full list and its total. -/
theorem c9_findSpendableOutputs_spec_witness :
    spendPrefix 120 (cUS.UTXOs "aa") = cUS.UTXOs "aa" ∧
    (cUS.FindSpendableOutputs "aa" 120).1 = cUS.GetBalance "aa" :=
  (c9_findSpendableOutputs_spec cUS "aa" 120).2.2.2.2.2 (by decide) (by decide)

end Stage3

namespace Stage3

open Common

/-! ## Claim C4: sign / verify round trip -/

/-- Setting a list position to the value it already holds is the
identity. -/
theorem list_set_same {α : Type} (l : List α) (i : Nat) (a : α)
    (h : l[i]? = some a) : l.set i a = l := by
  apply List.ext_getElem?
  intro j
  by_cases hj : i = j
  · subst hj
    have hlt : i < l.length := by
      by_contra hge
      rw [List.getElem?_eq_none (by omega)] at h
      cases h
    rw [List.getElem?_set_self hlt]
    exact h.symm
  · exact List.getElem?_set_ne hj

/-- `setSigPub` away from the written position. -/
theorem setSigPub_getElem?_ne (l : List TxInput) (i j : Nat) (s p : Bytes)
    (h : i ≠ j) : (setSigPub l i s p)[j]? = l[j]? := by
  rw [setSigPub]
  cases hl : l[i]? with
  | none => rfl
  | some inp => exact List.getElem?_set_ne h

/-- `setSigPub` at the written position. -/
theorem setSigPub_getElem?_self (l : List TxInput) (i : Nat) (s p : Bytes)
    (inp : TxInput) (h : l[i]? = some inp) :
    (setSigPub l i s p)[i]? = some { inp with Signature := s, PubKey := p } := by
  rw [setSigPub, h]
  have hlt : i < l.length := by
    by_contra hge
    rw [List.getElem?_eq_none (by omega)] at h
    cases h
  rw [List.getElem?_set_self hlt]

/-- Writing signature and public key does not change the trimmed image. -/
theorem setSigPub_map_trim (l : List TxInput) (i : Nat) (s p : Bytes) :
    (setSigPub l i s p).map trimInput = l.map trimInput := by
  rw [setSigPub]
  cases hl : l[i]? with
  | none => rfl
  | some inp =>
    rw [List.map_set,
      show trimInput { inp with Signature := s, PubKey := p } = trimInput inp from rfl]
    apply list_set_same
    rw [List.getElem?_map, hl]
    rfl

/-- Shape of the signing loop's output: `ID`, outputs, timestamp and the
trimmed image are those of the original; positions below the starting
index are untouched. -/
theorem signAux_shape (w : Wallet) (prevTxs : List (String × Transaction)) (n : Nat) :
    ∀ (i : Nat) (orig txCopy tx' : Transaction),
      signAux w prevTxs n i orig txCopy = some tx' →
      tx'.ID = orig.ID ∧ tx'.Outputs = orig.Outputs ∧ tx'.Timestamp = orig.Timestamp ∧
        tx'.Inputs.map trimInput = orig.Inputs.map trimInput ∧
        ∀ j, j < i → tx'.Inputs[j]? = orig.Inputs[j]? := by
  induction n with
  | zero =>
    intro i orig txCopy tx' h
    rw [signAux] at h
    cases h
    exact ⟨rfl, rfl, rfl, rfl, fun _ _ => rfl⟩
  | succ m ih =>
    intro i orig txCopy tx' h
    rw [signAux] at h
    cases hc : txCopy.Inputs[i]? with
    | none =>
      rw [hc] at h
      dsimp only at h
      cases h
      exact ⟨rfl, rfl, rfl, rfl, fun _ _ => rfl⟩
    | some input =>
      rw [hc] at h
      dsimp only at h
      cases hlk : lookupTx prevTxs (BytesToHex input.TxID) with
      | none => rw [hlk] at h; cases h
      | some prevTx =>
        rw [hlk] at h
        dsimp only at h
        by_cases hneg : input.OutIndex < 0
        · rw [if_pos hneg] at h; cases h
        rw [if_neg hneg] at h
        cases ho : prevTx.Outputs[input.OutIndex.toNat]? with
        | none => rw [ho] at h; cases h
        | some prevOut =>
          rw [ho] at h
          dsimp only at h
          have hrec := ih (i + 1) _ _ tx' h
          refine ⟨hrec.1, hrec.2.1, hrec.2.2.1, ?_, ?_⟩
          · exact (hrec.2.2.2.1).trans (setSigPub_map_trim ..)
          · intro j hj
            exact (hrec.2.2.2.2 j (by omega)).trans
              (setSigPub_getElem?_ne _ i j _ _ (by omega))

end Stage3

namespace Stage3

open Common

/-- The digest signed at loop iteration `i`: the hash of the copy with
input `i`'s `PubKey` temporarily set to the referenced output's
`PubKeyHash` (and the copy's `ID` still the previous iteration's).  Both
the signing and the verification loop compute exactly this value. -/
def stepDigest (txCopy : Transaction) (i : Nat) (input : TxInput)
    (prevOut : TxOutput) : Bytes :=
  Transaction.Hash
    { txCopy with Inputs :=
        txCopy.Inputs.set i { input with Signature := [], PubKey := prevOut.PubKeyHash } }

/-- The copy state entering loop iteration `i+1`: `ID` replaced by the
iteration's digest, the temporarily planted `PubKey` cleared again.  Both
loops produce exactly this state. -/
def stepCopy (txCopy : Transaction) (i : Nat) (input : TxInput)
    (prevOut : TxOutput) : Transaction :=
  { txCopy with
    ID := stepDigest txCopy i input prevOut
    Inputs :=
      (txCopy.Inputs.set i { input with Signature := [], PubKey := prevOut.PubKeyHash }).set i
        { input with Signature := [], PubKey := [] } }

/-- Unfolding of one successful signing iteration in terms of
`stepDigest`/`stepCopy`. -/
theorem signAux_step (w : Wallet) (prevTxs : List (String × Transaction))
    (m i : Nat) (orig txCopy : Transaction) (input : TxInput)
    (prevTx : Transaction) (prevOut : TxOutput)
    (hc : txCopy.Inputs[i]? = some input)
    (hlk : lookupTx prevTxs (BytesToHex input.TxID) = some prevTx)
    (hneg : ¬ input.OutIndex < 0)
    (ho : prevTx.Outputs[input.OutIndex.toNat]? = some prevOut) :
    signAux w prevTxs (m + 1) i orig txCopy =
      signAux w prevTxs m (i + 1)
        { orig with Inputs := (setSigPub orig.Inputs i
            (w.Sign (stepDigest txCopy i input prevOut)) (publicKeyToBytes w.PublicKey)) }
        (stepCopy txCopy i input prevOut) := by
  rw [signAux, hc]
  dsimp only
  rw [hlk]
  dsimp only
  rw [if_neg hneg, ho]
  dsimp only
  rfl

/-- Unfolding of one accepting verification iteration in terms of
`stepDigest`/`stepCopy`. -/
theorem verifyAux_step (prevTxs : List (String × Transaction)) (m i : Nat)
    (tx txCopy : Transaction) (input cinput : TxInput) (prevTx : Transaction)
    (prevOut : TxOutput) (pubKey : PubKey)
    (hti : tx.Inputs[i]? = some input)
    (hlk : lookupTx prevTxs (BytesToHex input.TxID) = some prevTx)
    (hc : txCopy.Inputs[i]? = some cinput)
    (hneg : ¬ input.OutIndex < 0)
    (ho : prevTx.Outputs[input.OutIndex.toNat]? = some prevOut)
    (hpk : bytesToPublicKey input.PubKey = some pubKey)
    (hsig : VerifySignature pubKey (stepDigest txCopy i cinput prevOut) input.Signature = true) :
    verifyAux prevTxs (m + 1) i tx txCopy =
      verifyAux prevTxs m (i + 1) tx (stepCopy txCopy i cinput prevOut) := by
  rw [verifyAux, hti]
  dsimp only
  rw [hlk]
  dsimp only
  rw [hc]
  dsimp only
  rw [if_neg hneg, ho]
  dsimp only
  rw [hpk]
  dsimp only
  rw [if_pos (show VerifySignature pubKey
    (Transaction.Hash { txCopy with Inputs := (txCopy.Inputs.set i { cinput with Signature := [], PubKey := prevOut.PubKeyHash }) })
    input.Signature = true from hsig)]
  rfl

/-- The verification loop accepts everything the signing loop produced:
the two loops replay the same digest sequence, and every signature was
made by the wallet's key over exactly that digest. -/
theorem verifyAux_of_signAux (w : Wallet) (prevTxs : List (String × Transaction))
    (hkey : bytesToPublicKey (publicKeyToBytes w.PublicKey) = some w.PublicKey)
    (hw : w.PrivateKey.pub = w.PublicKey)
    (hsev : ∀ d : Bytes, sigSplitsEvenly w.PublicKey (Hash d) = true) (n : Nat) :
    ∀ (i : Nat) (orig txCopy tx' : Transaction),
      (∀ j, i ≤ j → (orig.Inputs[j]?).map trimInput = (txCopy.Inputs[j]?).map trimInput) →
      signAux w prevTxs n i orig txCopy = some tx' →
      verifyAux prevTxs n i tx' txCopy = some true := by
  induction n with
  | zero =>
    intro i orig txCopy tx' hcorr h
    rw [verifyAux]
  | succ m ih =>
    intro i orig txCopy tx' hcorr h
    cases hc : txCopy.Inputs[i]? with
    | none =>
      rw [signAux, hc] at h
      dsimp only at h
      cases h
      have hmap : (orig.Inputs[i]?).map trimInput = none := by
        rw [hcorr i (le_refl i), hc]; rfl
      have hnone : orig.Inputs[i]? = none := by
        cases horig : orig.Inputs[i]? with
        | none => rfl
        | some v => rw [horig] at hmap; cases hmap
      rw [verifyAux, hnone]
    | some input =>
      have hcorri := hcorr i (le_refl i)
      rw [hc] at hcorri
      cases horig : orig.Inputs[i]? with
      | none => rw [horig] at hcorri; cases hcorri
      | some inpO =>
        rw [horig] at hcorri
        have htrim : trimInput inpO = trimInput input := by simpa using hcorri
        have hid1 : inpO.TxID = input.TxID := by
          have h' := congrArg TxInput.TxID htrim
          exact h'
        have hid2 : inpO.OutIndex = input.OutIndex := by
          have h' := congrArg TxInput.OutIndex htrim
          exact h'
        cases hlk : lookupTx prevTxs (BytesToHex input.TxID) with
        | none =>
          rw [signAux, hc] at h
          dsimp only at h
          rw [hlk] at h
          dsimp only at h
          cases h
        | some prevTx =>
          by_cases hneg : input.OutIndex < 0
          · rw [signAux, hc] at h
            dsimp only at h
            rw [hlk] at h
            dsimp only at h
            rw [if_pos hneg] at h
            cases h
          cases ho : prevTx.Outputs[input.OutIndex.toNat]? with
          | none =>
            rw [signAux, hc] at h
            dsimp only at h
            rw [hlk] at h
            dsimp only at h
            rw [if_neg hneg, ho] at h
            dsimp only at h
            cases h
          | some prevOut =>
            have hstep : signAux w prevTxs m (i + 1)
                { orig with Inputs := (setSigPub orig.Inputs i
                    (w.Sign (stepDigest txCopy i input prevOut))
                    (publicKeyToBytes w.PublicKey)) }
                (stepCopy txCopy i input prevOut) = some tx' := by
              rw [← signAux_step w prevTxs m i orig txCopy input prevTx prevOut hc hlk hneg ho]
              exact h
            have hshape := signAux_shape w prevTxs m (i + 1) _ _ tx' hstep
            have htx'i : tx'.Inputs[i]? = some { inpO with
                Signature := w.Sign (stepDigest txCopy i input prevOut)
                PubKey := publicKeyToBytes w.PublicKey } := by
              rw [hshape.2.2.2.2 i (by omega)]
              exact setSigPub_getElem?_self _ _ _ _ _ horig
            have hlk2 : lookupTx prevTxs (BytesToHex (({ inpO with
                Signature := w.Sign (stepDigest txCopy i input prevOut)
                PubKey := publicKeyToBytes w.PublicKey } : TxInput)).TxID) = some prevTx := by
              show lookupTx prevTxs (BytesToHex inpO.TxID) = some prevTx
              rw [hid1]; exact hlk
            have hneg2 : ¬ ({ inpO with
                Signature := w.Sign (stepDigest txCopy i input prevOut)
                PubKey := publicKeyToBytes w.PublicKey } : TxInput).OutIndex < 0 := by
              show ¬ inpO.OutIndex < 0
              omega
            have ho2 : prevTx.Outputs[(({ inpO with
                Signature := w.Sign (stepDigest txCopy i input prevOut)
                PubKey := publicKeyToBytes w.PublicKey } : TxInput)).OutIndex.toNat]? =
                some prevOut := by
              show prevTx.Outputs[inpO.OutIndex.toNat]? = some prevOut
              rw [hid2]; exact ho
            have hpk2 : bytesToPublicKey (({ inpO with
                Signature := w.Sign (stepDigest txCopy i input prevOut)
                PubKey := publicKeyToBytes w.PublicKey } : TxInput)).PubKey =
                some w.PublicKey := by
              show bytesToPublicKey (publicKeyToBytes w.PublicKey) = some w.PublicKey
              exact hkey
            have hsig2 : VerifySignature w.PublicKey (stepDigest txCopy i input prevOut)
                (({ inpO with
                  Signature := w.Sign (stepDigest txCopy i input prevOut)
                  PubKey := publicKeyToBytes w.PublicKey } : TxInput)).Signature = true := by
              show VerifySignature w.PublicKey (stepDigest txCopy i input prevOut)
                (w.Sign (stepDigest txCopy i input prevOut)) = true
              rw [VerifySignature, Wallet.Sign, ← hw]
              exact Common.verify_sign w.PrivateKey (stepDigest txCopy i input prevOut)
                (by rw [hw]; exact hsev (stepDigest txCopy i input prevOut))
            rw [verifyAux_step prevTxs m i tx' txCopy _ input prevTx prevOut w.PublicKey
              htx'i hlk2 hc hneg2 ho2 hpk2 hsig2]
            apply ih (i + 1) _ _ tx' _ hstep
            intro j hj
            have hj1 : i ≠ j := by omega
            have hproj1 : ({ orig with Inputs := (setSigPub orig.Inputs i
                (w.Sign (stepDigest txCopy i input prevOut))
                (publicKeyToBytes w.PublicKey)) } : Transaction).Inputs =
                setSigPub orig.Inputs i
                  (w.Sign (stepDigest txCopy i input prevOut))
                  (publicKeyToBytes w.PublicKey) := rfl
            have hproj2 : (stepCopy txCopy i input prevOut).Inputs =
                (txCopy.Inputs.set i
                  { input with Signature := [], PubKey := prevOut.PubKeyHash }).set i
                  { input with Signature := [], PubKey := [] } := rfl
            rw [hproj1, setSigPub_getElem?_ne _ _ _ _ _ hj1, hproj2,
              List.getElem?_set_ne hj1, List.getElem?_set_ne hj1]
            exact hcorr j (by omega)

end Stage3

namespace Stage3

open Common

/-- Coinbase detection only looks at the trimmed image of the inputs. -/
theorem isCoinbase_map_trim (t : Transaction) :
    t.IsCoinbase = (match t.Inputs.map trimInput with
      | [inp] => inp.TxID.length == 0 && inp.OutIndex == -1
      | _ => false) := by
  rw [Transaction.IsCoinbase]
  cases h : t.Inputs with
  | nil => rfl
  | cons x xs =>
    cases xs with
    | nil => rfl
    | cons y ys => rfl

/-- Transactions with the same trimmed inputs agree on coinbase-ness. -/
theorem isCoinbase_congr (a b : Transaction)
    (h : a.Inputs.map trimInput = b.Inputs.map trimInput) :
    a.IsCoinbase = b.IsCoinbase := by
  rw [isCoinbase_map_trim a, isCoinbase_map_trim b, h]

/-- The missing-context check only looks at the trimmed image of the
inputs. -/
theorem anyNone_map_trim (t : Transaction) (prevTxs : List (String × Transaction)) :
    (t.Inputs.any fun inp => (lookupTx prevTxs (BytesToHex inp.TxID)).isNone) =
      ((t.Inputs.map trimInput).any fun inp =>
        (lookupTx prevTxs (BytesToHex inp.TxID)).isNone) := by
  rw [List.any_map]
  rfl

/-- **C4 (amended)** — for every non-coinbase transaction whose signing
over the context `prevTxs` succeeds, verification over the same context
accepts, *provided* (i) the wallet's public key survives the
`publicKeyToBytes`/`bytesToPublicKey` round trip (which requires the two
coordinates' minimal byte encodings to have equal non-zero length),
(ii) the wallet's cached public key matches its private key, and
(iii) every signature the wallet produces splits back evenly at
`common.Verify`'s midpoint (the `R` and `S` byte encodings have equal
non-zero length — otherwise the verifier mis-splits or rejects the
`R‖S` concatenation and verification fails even under the matching
key).  The signed transaction keeps the original's `ID`, outputs and
timestamp. -/
theorem c4_sign_verify_roundtrip (tx : Transaction) (w : Wallet)
    (prevTxs : List (String × Transaction)) (tx' : Transaction)
    (hnc : tx.IsCoinbase = false)
    (hkey : bytesToPublicKey (publicKeyToBytes w.PublicKey) = some w.PublicKey)
    (hw : w.PrivateKey.pub = w.PublicKey)
    (hsev : ∀ d : Bytes, sigSplitsEvenly w.PublicKey (Hash d) = true)
    (hsign : tx.Sign w prevTxs = some tx') :
    tx'.Verify prevTxs = some true ∧
      tx'.ID = tx.ID ∧ tx'.Outputs = tx.Outputs ∧ tx'.Timestamp = tx.Timestamp := by
  rw [Transaction.Sign, hnc] at hsign
  simp only [Bool.false_eq_true, if_false] at hsign
  cases hany : (tx.Inputs.any fun inp => (lookupTx prevTxs (BytesToHex inp.TxID)).isNone) with
  | true => rw [hany] at hsign; simp at hsign
  | false =>
    rw [hany] at hsign
    simp only [Bool.false_eq_true, if_false] at hsign
    have hshape := signAux_shape w prevTxs tx.Inputs.length 0 tx tx.trimmedCopy tx' hsign
    have htrims : tx'.Inputs.map trimInput = tx.Inputs.map trimInput := by
      have := hshape.2.2.2.1
      exact this
    have hlen : tx'.Inputs.length = tx.Inputs.length := by
      have := congrArg List.length htrims
      simpa using this
    have hnc' : tx'.IsCoinbase = false := by
      rw [isCoinbase_congr tx' tx htrims]; exact hnc
    have hany' : (tx'.Inputs.any fun inp =>
        (lookupTx prevTxs (BytesToHex inp.TxID)).isNone) = false := by
      rw [anyNone_map_trim, htrims, ← anyNone_map_trim]; exact hany
    have hcopy : tx'.trimmedCopy = tx.trimmedCopy := by
      rw [Transaction.trimmedCopy, Transaction.trimmedCopy, htrims, hshape.1,
        hshape.2.1, hshape.2.2.1]
    refine ⟨?_, hshape.1, hshape.2.1, hshape.2.2.1⟩
    rw [Transaction.Verify, hnc']
    simp only [Bool.false_eq_true, if_false]
    rw [hany']
    simp only [Bool.false_eq_true, if_false]
    rw [hlen, hcopy]
    apply verifyAux_of_signAux w prevTxs hkey hw hsev tx.Inputs.length 0 tx tx.trimmedCopy tx' _ hsign
    intro j _
    rw [show (tx.trimmedCopy).Inputs = tx.Inputs.map trimInput from rfl,
      List.getElem?_map]
    cases hj : tx.Inputs[j]? with
    | none => rfl
    | some v => rfl

end Stage3

namespace Stage3

open Common

/-- A prior transaction with one 50-coin output (ID `0x05`, hex `"05"`). -/
def cPrevTxC4 : Transaction :=
  { ID := [5], Inputs := [], Outputs := [{ Value := 50, PubKeyHash := [7] }],
    Timestamp := 0 }

/-- The signing context holding that prior transaction. -/
def cPrevTxsC4 : List (String × Transaction) := [("05", cPrevTxC4)]

/-- A non-coinbase transaction spending output 0 of the prior one. -/
def cSpendTx : Transaction :=
  { ID := [6],
    Inputs := [{ TxID := [5], OutIndex := 0, Signature := [], PubKey := [] }],
    Outputs := [{ Value := 50, PubKeyHash := [8] }],
    Timestamp := 0 }

/-- A wallet whose public key coordinates have minimal byte encodings of
different lengths: `X = 1` (one byte), `Y = 256` (two bytes), so
`publicKeyToBytes` yields the odd-length `[1, 1, 0]`, which
`bytesToPublicKey` rejects. -/
def cBadW : Wallet :=
  { PrivateKey := { pub := { x := 1, y := 256 } },
    PublicKey := { x := 1, y := 256 }, Address := "" }

/-- A wallet whose key encoding round-trips (`X = Y = 1`). -/
def cGoodW : Wallet :=
  { PrivateKey := { pub := { x := 1, y := 1 } },
    PublicKey := { x := 1, y := 1 }, Address := "" }

set_option maxRecDepth 8000 in
/-- **C4 (counterexample)** — signing succeeds for the wallet `cBadW`,
yet verification of the signed transaction over the same context returns
`false`: the signer stores `X.Bytes() ‖ Y.Bytes()` as the input's public
key, and `bytesToPublicKey` rejects the odd-length concatenation
`[1, 1, 0]`, so the claimed sign-then-verify round trip fails for
wallets whose coordinate encodings differ in length. -/
theorem c4_counterexample :
    cSpendTx.IsCoinbase = false ∧
    (cSpendTx.Sign cBadW cPrevTxsC4).isSome = true ∧
    (cSpendTx.Sign cBadW cPrevTxsC4).map (fun t => t.Verify cPrevTxsC4) =
      some (some false) := by decide

/-- The transaction `cSpendTx` as signed by the good wallet. -/
def cSignedGood : Transaction := (cSpendTx.Sign cGoodW cPrevTxsC4).getD cSpendTx

set_option maxRecDepth 8000 in
/-- Witness for **C4 (amended)**: with the round-tripping wallet
`cGoodW`, sign-then-verify accepts at the concrete transaction. -/
theorem c4_sign_verify_roundtrip_witness :
    cSignedGood.Verify cPrevTxsC4 = some true ∧
      cSignedGood.ID = cSpendTx.ID ∧ cSignedGood.Outputs = cSpendTx.Outputs ∧
      cSignedGood.Timestamp = cSpendTx.Timestamp :=
  c4_sign_verify_roundtrip cSpendTx cGoodW cPrevTxsC4 cSignedGood
    (by decide) (by decide) (by decide)
    (by
      intro d
      have hpos := natBytes_length_pos (1 + bytesToNat (Hash d)) (by omega)
      show (decide ((natBytes (1 + bytesToNat (Hash d))).length =
            (natBytes (1 + bytesToNat (Hash d))).length) &&
          decide ((natBytes (1 + bytesToNat (Hash d))).length ≠ 0)) = true
      rw [Bool.and_eq_true, decide_eq_true_eq, decide_eq_true_eq]
      exact ⟨rfl, by omega⟩)
    (by decide)

end Stage3

namespace Stage3

open Common

/-! ## Claim C6: folding `Update` over the chain versus `Reindex` -/

/-- Hex-encoded ids of a list of transactions. -/
def hexIDs (txs : List Transaction) : List String :=
  txs.map (fun t => BytesToHex t.ID)

/-- The inputs a transaction consumes as far as the UTXO set is
concerned: a coinbase consumes nothing (both `Update` and `Reindex` skip
coinbase inputs). -/
def txInputsOf (t : Transaction) : List TxInput :=
  if t.IsCoinbase then [] else t.Inputs

/-- All inputs consumed by a list of transactions. -/
def inputsOf (txs : List Transaction) : List TxInput :=
  txs.flatMap txInputsOf

/-- All transactions of a list of blocks, in order. -/
def allTxs (bs : List Block) : List Transaction :=
  bs.flatMap Block.Transactions

/-- All inputs consumed by a list of blocks. -/
def chainInputs (bs : List Block) : List TxInput :=
  inputsOf (allTxs bs)

/-- Whether some input of the list consumes the stored UTXO (matching by
hex-encoded transaction id and output index, exactly as `Update`
removes and `Reindex` skips). -/
def inputSpends (u : UTXO) (inps : List TxInput) : Bool :=
  inps.any (fun inp => utxoMatchesInput u inp)

/-- Whether every input of the list stays clear of the given tx-id hex
strings. -/
def avoidB (inps : List TxInput) (ids : List String) : Bool :=
  inps.all (fun inp => !(ids.contains (BytesToHex inp.TxID)))

/-- The no-forward-reference discipline of a well-formed chain: the
inputs of every block consume (by tx-id hex) no transaction of the
block itself nor of any later block — inputs only reference strictly
earlier blocks. -/
def refsOnlyEarlier : List Block → Bool
  | [] => true
  | b :: bs =>
    avoidB (inputsOf b.Transactions) (hexIDs (allTxs (b :: bs))) &&
      refsOnlyEarlier bs

/-- The UTXO entries an indexed output list contributes at one address,
for a fixed transaction id. -/
def outEntries (txID : Bytes) (addr : String) :
    List (Nat × TxOutput) → List UTXO :=
  List.filterMap (fun p =>
    if addr = BytesToHex p.2.PubKeyHash then
      some { TxID := txID, OutIndex := (p.1 : Int), Output := p.2 }
    else none)

/-- The UTXO entries one transaction contributes at one address. -/
def txEntries (addr : String) (tx : Transaction) : List UTXO :=
  outEntries tx.ID addr tx.Outputs.enum

/-- The UTXO entries a transaction list contributes at one address. -/
def txsEntries (addr : String) (txs : List Transaction) : List UTXO :=
  txs.flatMap (txEntries addr)

/-- The UTXO entries a block list contributes at one address. -/
def chainEntries (addr : String) (bs : List Block) : List UTXO :=
  txsEntries addr (allTxs bs)

/-- Mark one input's consumed output in the spent tracker. -/
def markInput (S : String → List Int) (inp : TxInput) : String → List Int :=
  markSpent S (BytesToHex inp.TxID) inp.OutIndex

/-- Whether the tracker marks the output stored in `u` as spent. -/
def spentOn (S : String → List Int) (u : UTXO) : Bool :=
  spentHas S (BytesToHex u.TxID) u.OutIndex

theorem inputsOf_cons (t : Transaction) (ts : List Transaction) :
    inputsOf (t :: ts) = txInputsOf t ++ inputsOf ts := by
  simp [inputsOf]

theorem inputsOf_append (l1 l2 : List Transaction) :
    inputsOf (l1 ++ l2) = inputsOf l1 ++ inputsOf l2 := by
  simp [inputsOf]

theorem hexIDs_cons (t : Transaction) (ts : List Transaction) :
    hexIDs (t :: ts) = BytesToHex t.ID :: hexIDs ts := by
  simp [hexIDs]

theorem allTxs_cons (b : Block) (bs : List Block) :
    allTxs (b :: bs) = b.Transactions ++ allTxs bs := by
  simp [allTxs]

theorem chainInputs_cons (b : Block) (bs : List Block) :
    chainInputs (b :: bs) = inputsOf b.Transactions ++ chainInputs bs := by
  simp [chainInputs, allTxs_cons, inputsOf_append]

theorem txsEntries_cons (addr : String) (t : Transaction) (ts : List Transaction) :
    txsEntries addr (t :: ts) = txEntries addr t ++ txsEntries addr ts := by
  simp [txsEntries]

theorem txsEntries_append (addr : String) (l1 l2 : List Transaction) :
    txsEntries addr (l1 ++ l2) = txsEntries addr l1 ++ txsEntries addr l2 := by
  simp [txsEntries]

theorem inputSpends_nil (u : UTXO) : inputSpends u [] = false := rfl

theorem inputSpends_append (u : UTXO) (l1 l2 : List TxInput) :
    inputSpends u (l1 ++ l2) = (inputSpends u l1 || inputSpends u l2) := by
  simp [inputSpends]

/-- `inputSpends` only looks at membership. -/
theorem inputSpends_congr {l1 l2 : List TxInput}
    (h : ∀ x, x ∈ l1 ↔ x ∈ l2) (u : UTXO) :
    inputSpends u l1 = inputSpends u l2 := by
  rw [Bool.eq_iff_iff]
  simp only [inputSpends, List.any_eq_true]
  constructor
  · rintro ⟨i, hi, hm⟩; exact ⟨i, (h i).mp hi, hm⟩
  · rintro ⟨i, hi, hm⟩; exact ⟨i, (h i).mpr hi, hm⟩

/-- `avoidB` is antitone in both arguments. -/
theorem avoidB_mono {inps inps' : List TxInput} {ids ids' : List String}
    (hi : ∀ x ∈ inps', x ∈ inps) (hs : ∀ s ∈ ids', s ∈ ids)
    (h : avoidB inps ids = true) : avoidB inps' ids' = true := by
  simp only [avoidB, List.all_eq_true] at h ⊢
  intro x hx
  have hav := h x (hi x hx)
  simp only [Bool.not_eq_true'] at hav ⊢
  cases hc : ids'.contains (BytesToHex x.TxID) with
  | false => rfl
  | true =>
    exfalso
    have hmem : BytesToHex x.TxID ∈ ids := hs _ (List.elem_iff.mp hc)
    have hct : ids.contains (BytesToHex x.TxID) = true := List.elem_iff.mpr hmem
    rw [hct] at hav
    simp at hav

/-- An input list that avoids a set of tx-id hex strings spends no UTXO
whose tx id (hex) lies in that set. -/
theorem not_spends_of_avoid {inps : List TxInput} {ids : List String}
    (h : avoidB inps ids = true) (u : UTXO)
    (hu : BytesToHex u.TxID ∈ ids) : inputSpends u inps = false := by
  cases hsp : inputSpends u inps with
  | false => rfl
  | true =>
    exfalso
    simp only [inputSpends, List.any_eq_true] at hsp
    obtain ⟨inp, hmem, hm⟩ := hsp
    simp only [avoidB, List.all_eq_true] at h
    have hav := h inp hmem
    simp only [Bool.not_eq_true'] at hav
    simp only [utxoMatchesInput, Bool.and_eq_true, beq_iff_eq] at hm
    rw [hm.1] at hu
    have hct : ids.contains (BytesToHex inp.TxID) = true := List.elem_iff.mpr hu
    rw [hct] at hav
    simp at hav

/-- Membership in `txEntries` pins the stored transaction id. -/
theorem txEntries_txID {u : UTXO} {addr : String} {tx : Transaction}
    (h : u ∈ txEntries addr tx) : u.TxID = tx.ID := by
  simp only [txEntries, outEntries, List.mem_filterMap] at h
  obtain ⟨p, hp, hpu⟩ := h
  by_cases hm : addr = BytesToHex p.2.PubKeyHash
  · rw [if_pos hm] at hpu
    cases hpu
    rfl
  · rw [if_neg hm] at hpu
    cases hpu

/-- Entries of a transaction list carry ids of the list. -/
theorem txsEntries_hex_mem {u : UTXO} {addr : String} {txs : List Transaction}
    (h : u ∈ txsEntries addr txs) : BytesToHex u.TxID ∈ hexIDs txs := by
  simp only [txsEntries, List.mem_flatMap] at h
  obtain ⟨t, ht, hu⟩ := h
  rw [txEntries_txID hu]
  simp only [hexIDs, List.mem_map]
  exact ⟨t, ht, rfl⟩

end Stage3

namespace Stage3

open Common

/-- `removeInput` folded over an input list filters every address's
list by all the inputs at once. -/
theorem foldl_removeInput (inps : List TxInput) (m : String → List UTXO)
    (addr : String) :
    (inps.foldl removeInput m) addr =
      (m addr).filter (fun u => !(inputSpends u inps)) := by
  induction inps generalizing m with
  | nil =>
    simp [inputSpends]
  | cons i is ih =>
    rw [List.foldl_cons, ih]
    simp only [removeInput]
    rw [List.filter_filter]
    apply List.filter_congr
    intro u _
    simp [inputSpends, Bool.and_comm]

/-- The output-append fold of `updateTx`, characterized per address. -/
theorem foldl_addOutput (txID : Bytes) (l : List (Nat × TxOutput))
    (m : String → List UTXO) (addr : String) :
    (l.foldl (fun acc p => addOutput acc txID p.1 p.2) m) addr =
      m addr ++ outEntries txID addr l := by
  induction l generalizing m with
  | nil => simp [outEntries]
  | cons p l ih =>
    rw [List.foldl_cons, ih]
    by_cases h : addr = BytesToHex p.2.PubKeyHash
    · simp [addOutput, outEntries, List.filterMap_cons, h]
    · simp [addOutput, outEntries, List.filterMap_cons, h]

/-- One `Update` transaction step, characterized per address: drop the
consumed outputs, append the new entries. -/
theorem updateTx_char (m : String → List UTXO) (tx : Transaction)
    (addr : String) :
    updateTx m tx addr =
      (m addr).filter (fun u => !(inputSpends u (txInputsOf tx))) ++
        txEntries addr tx := by
  simp only [updateTx, txInputsOf, txEntries]
  rw [foldl_addOutput]
  cases h : tx.IsCoinbase with
  | true =>
    simp [inputSpends]
  | false =>
    simp only [Bool.false_eq_true, if_false]
    rw [foldl_removeInput]

/-- Folding `updateTx` over a transaction list none of whose inputs
consumes a transaction of the list itself. -/
theorem foldl_updateTx_char (txs : List Transaction) :
    ∀ (m : String → List UTXO) (addr : String),
      avoidB (inputsOf txs) (hexIDs txs) = true →
      (txs.foldl updateTx m) addr =
        (m addr).filter (fun u => !(inputSpends u (inputsOf txs))) ++
          txsEntries addr txs := by
  induction txs with
  | nil =>
    intro m addr _
    simp [inputsOf, txsEntries, inputSpends]
  | cons t ts ih =>
    intro m addr hav
    have hav' : avoidB (inputsOf ts) (hexIDs ts) = true := by
      refine avoidB_mono ?_ ?_ hav
      · intro x hx
        rw [inputsOf_cons]
        exact List.mem_append_right _ hx
      · intro s hs
        rw [hexIDs_cons]
        exact List.mem_cons_of_mem _ hs
    rw [List.foldl_cons, ih _ addr hav', updateTx_char, List.filter_append,
      List.filter_filter, txsEntries_cons, ← List.append_assoc]
    have h2 : (txEntries addr t).filter
        (fun u => !(inputSpends u (inputsOf ts))) = txEntries addr t := by
      rw [List.filter_eq_self]
      intro u hu
      have hx : BytesToHex u.TxID ∈ hexIDs (t :: ts) := by
        rw [hexIDs_cons, txEntries_txID hu]
        exact List.mem_cons_self _ _
      have hsub : avoidB (inputsOf ts) (hexIDs (t :: ts)) = true := by
        refine avoidB_mono ?_ (fun s hs => hs) hav
        intro x hx
        rw [inputsOf_cons]
        exact List.mem_append_right _ hx
      rw [not_spends_of_avoid hsub u hx]
      rfl
    rw [h2]
    congr 1
    congr 1
    apply List.filter_congr
    intro u _
    rw [inputsOf_cons, inputSpends_append]
    simp [Bool.and_comm]

/-- The `UTXOs` map of an `Update` fold, as a fold of `updateTx`. -/
theorem foldUpdate_UTXOs (blocks : List Block) (us : UTXOSet) :
    (blocks.foldl UTXOSet.Update us).UTXOs =
      blocks.foldl (fun m b => b.Transactions.foldl updateTx m) us.UTXOs := by
  induction blocks generalizing us with
  | nil => rfl
  | cons b bs ih =>
    rw [List.foldl_cons, List.foldl_cons, ih]
    rfl

end Stage3

namespace Stage3

open Common

/-- The spent-tracker half of one `Reindex` transaction step marks
exactly the transaction's consumed inputs. -/
theorem reindexTx_snd (st : (String → List UTXO) × (String → List Int))
    (tx : Transaction) :
    (reindexTx st tx).2 = (txInputsOf tx).foldl markInput st.2 := by
  simp only [reindexTx, txInputsOf]
  cases h : tx.IsCoinbase with
  | true => rfl
  | false => rfl

/-- The spent tracker after a `Reindex` transaction fold. -/
theorem foldl_reindexTx_snd (txs : List Transaction) :
    ∀ st : (String → List UTXO) × (String → List Int),
      (txs.foldl reindexTx st).2 = (inputsOf txs).foldl markInput st.2 := by
  induction txs with
  | nil => intro st; rfl
  | cons t ts ih =>
    intro st
    rw [List.foldl_cons, ih, reindexTx_snd, inputsOf_cons, List.foldl_append]

/-- The spent tracker after a `Reindex` block fold. -/
theorem foldl_reindexBlock_snd (bs : List Block) :
    ∀ st : (String → List UTXO) × (String → List Int),
      (bs.foldl reindexBlock st).2 = (chainInputs bs).foldl markInput st.2 := by
  induction bs with
  | nil => intro st; rfl
  | cons b bs ih =>
    intro st
    rw [List.foldl_cons, ih,
      show reindexBlock st b = b.Transactions.foldl reindexTx st from rfl,
      foldl_reindexTx_snd, chainInputs_cons, List.foldl_append]

/-- Marking one input affects `spentOn` exactly on the matching UTXOs. -/
theorem spentOn_markInput (S : String → List Int) (inp : TxInput) (u : UTXO) :
    spentOn (markInput S inp) u = (spentOn S u || utxoMatchesInput u inp) := by
  simp only [spentOn, markInput, markSpent, spentHas, utxoMatchesInput]
  by_cases h : BytesToHex u.TxID = BytesToHex inp.TxID
  · rw [if_pos h, h]
    simp
    rfl
  · rw [if_neg h]
    have hb : (BytesToHex u.TxID == BytesToHex inp.TxID) = false := by
      simp [h]
    rw [hb]
    simp

/-- `spentOn` after marking a list of inputs. -/
theorem spentOn_foldMark (inps : List TxInput) :
    ∀ (S : String → List Int) (u : UTXO),
      spentOn (inps.foldl markInput S) u = (spentOn S u || inputSpends u inps) := by
  induction inps with
  | nil => intro S u; simp [inputSpends]
  | cons i is ih =>
    intro S u
    rw [List.foldl_cons, ih, spentOn_markInput]
    simp [inputSpends, Bool.or_assoc]

/-- The empty tracker marks nothing. -/
theorem spentOn_empty (u : UTXO) : spentOn (fun _ => []) u = false := rfl

/-- The output-insertion fold of `Reindex`, characterized per address:
append the entries not yet marked spent. -/
theorem reindexAdd_aux (tx : Transaction) (S : String → List Int)
    (l : List (Nat × TxOutput)) :
    ∀ (m : String → List UTXO) (addr : String),
      (l.foldl (fun m p =>
          if spentHas S (BytesToHex tx.ID) p.1 then m
          else addOutput m tx.ID p.1 p.2) m) addr =
        m addr ++ (outEntries tx.ID addr l).filter (fun u => !(spentOn S u)) := by
  induction l with
  | nil => intro m addr; simp [outEntries]
  | cons p l ih =>
    intro m addr
    rw [List.foldl_cons]
    by_cases hs : spentHas S (BytesToHex tx.ID) (p.1 : Int) = true
    · rw [if_pos hs, ih]
      by_cases hm : addr = BytesToHex p.2.PubKeyHash
      · simp [outEntries, List.filterMap_cons, hm, spentOn, hs]
      · simp [outEntries, List.filterMap_cons, hm]
    · rw [if_neg hs, ih]
      have hs' : spentHas S (BytesToHex tx.ID) (p.1 : Int) = false :=
        Bool.not_eq_true _ ▸ Bool.of_not_eq_true hs
      by_cases hm : addr = BytesToHex p.2.PubKeyHash
      · simp [outEntries, List.filterMap_cons, hm, addOutput, spentOn, hs']
      · simp [outEntries, List.filterMap_cons, hm, addOutput]

/-- `reindexAddOutputs`, characterized per address. -/
theorem reindexAddOutputs_char
    (st : (String → List UTXO) × (String → List Int)) (tx : Transaction)
    (addr : String) :
    reindexAddOutputs st tx addr =
      st.1 addr ++ (txEntries addr tx).filter (fun u => !(spentOn st.2 u)) := by
  simp only [reindexAddOutputs, txEntries]
  rw [reindexAdd_aux]

/-- The map half of one `Reindex` transaction step. -/
theorem reindexTx_fst (st : (String → List UTXO) × (String → List Int))
    (tx : Transaction) (addr : String) :
    (reindexTx st tx).1 addr =
      st.1 addr ++ (txEntries addr tx).filter (fun u => !(spentOn st.2 u)) := by
  simp only [reindexTx]
  exact reindexAddOutputs_char st tx addr

end Stage3

namespace Stage3

open Common

/-- Folding `reindexTx` over a transaction list none of whose inputs
consumes a transaction of the list itself: every entry is appended
unless the incoming tracker already marks it. -/
theorem foldl_reindexTx_fst (txs : List Transaction) :
    ∀ (st : (String → List UTXO) × (String → List Int)) (addr : String),
      avoidB (inputsOf txs) (hexIDs txs) = true →
      (txs.foldl reindexTx st).1 addr =
        st.1 addr ++ (txsEntries addr txs).filter (fun u => !(spentOn st.2 u)) := by
  induction txs with
  | nil =>
    intro st addr _
    simp [txsEntries]
  | cons t ts ih =>
    intro st addr hav
    have hav' : avoidB (inputsOf ts) (hexIDs ts) = true := by
      refine avoidB_mono ?_ ?_ hav
      · intro x hx
        rw [inputsOf_cons]
        exact List.mem_append_right _ hx
      · intro s hs
        rw [hexIDs_cons]
        exact List.mem_cons_of_mem _ hs
    rw [List.foldl_cons, ih _ addr hav', reindexTx_fst, reindexTx_snd]
    have hts : ∀ u ∈ txsEntries addr ts,
        (!(spentOn ((txInputsOf t).foldl markInput st.2) u)) =
          (!(spentOn st.2 u)) := by
      intro u hu
      rw [spentOn_foldMark]
      have hsub : avoidB (txInputsOf t) (hexIDs (t :: ts)) = true := by
        refine avoidB_mono ?_ (fun s hs => hs) hav
        intro x hx
        rw [inputsOf_cons]
        exact List.mem_append_left _ hx
      have hx : BytesToHex u.TxID ∈ hexIDs (t :: ts) := by
        rw [hexIDs_cons]
        exact List.mem_cons_of_mem _ (txsEntries_hex_mem hu)
      rw [show inputSpends u (txInputsOf t) = false from
        not_spends_of_avoid hsub u hx]
      simp
    rw [List.filter_congr hts, txsEntries_cons, List.filter_append,
      List.append_assoc]

/-- A step of the `Reindex` block fold, written as its transaction fold. -/
theorem reindexBlock_eq (st : (String → List UTXO) × (String → List Int))
    (b : Block) : reindexBlock st b = b.Transactions.foldl reindexTx st := rfl

/-- The `Reindex` scan of a no-forward-reference chain keeps exactly the
entries no input of the chain consumes (scanning blocks in reverse). -/
theorem reindexFold_char (blocks : List Block) (addr : String) :
    refsOnlyEarlier blocks = true →
    (blocks.reverse.foldl reindexBlock (fun _ => [], fun _ => [])).1 addr =
      (chainEntries addr blocks.reverse).filter
        (fun u => !(inputSpends u (chainInputs blocks))) := by
  induction blocks with
  | nil =>
    intro _
    rfl
  | cons b bs ih =>
    intro h
    have hsplit : avoidB (inputsOf b.Transactions) (hexIDs (allTxs (b :: bs))) = true ∧
        refsOnlyEarlier bs = true := by
      simpa [refsOnlyEarlier, Bool.and_eq_true] using h
    obtain ⟨h1, h2⟩ := hsplit
    have havb : avoidB (inputsOf b.Transactions) (hexIDs b.Transactions) = true := by
      refine avoidB_mono (fun x hx => hx) ?_ h1
      intro s hs
      rw [allTxs_cons]
      simp only [hexIDs, List.map_append, List.mem_append]
      exact Or.inl hs
    rw [List.reverse_cons, List.foldl_append, List.foldl_cons, List.foldl_nil,
      reindexBlock_eq, foldl_reindexTx_fst _ _ addr havb, ih h2]
    have hS : ∀ u ∈ txsEntries addr b.Transactions,
        (!(spentOn ((bs.reverse.foldl reindexBlock (fun _ => [], fun _ => [])).2) u)) =
          (!(inputSpends u (chainInputs (b :: bs)))) := by
      intro u hu
      rw [foldl_reindexBlock_snd, spentOn_foldMark, spentOn_empty, Bool.false_or]
      have hrev : inputSpends u (chainInputs bs.reverse) =
          inputSpends u (chainInputs bs) := by
        refine inputSpends_congr ?_ u
        intro x
        simp [chainInputs, inputsOf, allTxs, List.mem_flatMap, List.mem_reverse]
      have hx : BytesToHex u.TxID ∈ hexIDs (allTxs (b :: bs)) := by
        rw [allTxs_cons]
        simp only [hexIDs, List.map_append, List.mem_append]
        exact Or.inl (txsEntries_hex_mem hu)
      rw [hrev, chainInputs_cons, inputSpends_append,
        show inputSpends u (inputsOf b.Transactions) = false from
          not_spends_of_avoid h1 u hx, Bool.false_or]
    rw [List.filter_congr hS]
    have hE : ∀ u ∈ chainEntries addr bs.reverse,
        (!(inputSpends u (chainInputs bs))) =
          (!(inputSpends u (chainInputs (b :: bs)))) := by
      intro u hu
      have hx : BytesToHex u.TxID ∈ hexIDs (allTxs (b :: bs)) := by
        have hu2 : u ∈ txsEntries addr (allTxs bs.reverse) := hu
        have hmem := txsEntries_hex_mem hu2
        rw [allTxs_cons]
        simp only [hexIDs, List.map_append, List.mem_append]
        refine Or.inr ?_
        simp only [hexIDs, List.mem_map] at hmem ⊢
        obtain ⟨t, ht, hts⟩ := hmem
        refine ⟨t, ?_, hts⟩
        simp only [allTxs, List.mem_flatMap, List.mem_reverse] at ht ⊢
        exact ht
      rw [chainInputs_cons, inputSpends_append,
        show inputSpends u (inputsOf b.Transactions) = false from
          not_spends_of_avoid h1 u hx, Bool.false_or]
    rw [List.filter_congr hE]
    rw [show chainEntries addr (bs.reverse ++ [b]) =
        chainEntries addr bs.reverse ++ txsEntries addr b.Transactions by
      simp [chainEntries, allTxs, List.flatMap_append, txsEntries_append]]
    rw [List.filter_append]

end Stage3

namespace Stage3

open Common

/-- Flattening after reversing permutes the flattening. -/
theorem flatMap_reverse_perm {α β : Type} (l : List α) (f : α → List β) :
    (l.reverse.flatMap f).Perm (l.flatMap f) := by
  induction l with
  | nil => simp
  | cons a l ih =>
    rw [List.reverse_cons, List.flatMap_append, List.flatMap_cons,
      List.flatMap_cons]
    simp only [List.flatMap_nil, List.append_nil]
    exact (List.perm_append_comm).trans (List.Perm.append_left (f a) ih)

/-- Flattening twice associates. -/
theorem flatMap_flatMap {α β γ : Type} (l : List α) (f : α → List β)
    (g : β → List γ) :
    (l.flatMap f).flatMap g = l.flatMap (fun a => (f a).flatMap g) := by
  induction l with
  | nil => rfl
  | cons a l ih =>
    simp only [List.flatMap_cons, List.flatMap_append, ih]

/-- The entries contributed by a reversed chain are a permutation of the
entries contributed by the chain. -/
theorem chainEntries_reverse_perm (addr : String) (blocks : List Block) :
    (chainEntries addr blocks.reverse).Perm (chainEntries addr blocks) := by
  simp only [chainEntries, txsEntries, allTxs]
  rw [flatMap_flatMap, flatMap_flatMap]
  exact flatMap_reverse_perm blocks _

/-- The `Update` fold over a no-forward-reference chain, from the empty
set, keeps exactly the entries no input of the chain consumes. -/
theorem updFold_char (blocks : List Block) (addr : String)
    (h : refsOnlyEarlier blocks = true) :
    (blocks.foldl UTXOSet.Update { UTXOs := fun _ => [] }).UTXOs addr =
      (chainEntries addr blocks).filter
        (fun u => !(inputSpends u (chainInputs blocks))) := by
  rw [foldUpdate_UTXOs]
  have main : ∀ (bs : List Block) (m : String → List UTXO) (a : String),
      refsOnlyEarlier bs = true →
      (bs.foldl (fun m b => b.Transactions.foldl updateTx m) m) a =
        (m a).filter (fun u => !(inputSpends u (chainInputs bs))) ++
          (chainEntries a bs).filter (fun u => !(inputSpends u (chainInputs bs))) := by
    intro bs
    induction bs with
    | nil =>
      intro m a _
      simp [chainInputs, chainEntries, allTxs, inputsOf, txsEntries, inputSpends]
    | cons b bs ih =>
      intro m a hb
      have hsplit : avoidB (inputsOf b.Transactions) (hexIDs (allTxs (b :: bs))) = true ∧
          refsOnlyEarlier bs = true := by
        simpa [refsOnlyEarlier, Bool.and_eq_true] using hb
      obtain ⟨h1, h2⟩ := hsplit
      have havb : avoidB (inputsOf b.Transactions) (hexIDs b.Transactions) = true := by
        refine avoidB_mono (fun x hx => hx) ?_ h1
        intro s hs
        rw [allTxs_cons]
        simp only [hexIDs, List.map_append, List.mem_append]
        exact Or.inl hs
      rw [List.foldl_cons, ih _ a h2, foldl_updateTx_char _ _ a havb,
        List.filter_append, List.filter_filter]
      have hEb : ∀ u ∈ txsEntries a b.Transactions,
          (!(inputSpends u (chainInputs bs))) =
            (!(inputSpends u (chainInputs (b :: bs)))) := by
        intro u hu
        have hx : BytesToHex u.TxID ∈ hexIDs (allTxs (b :: bs)) := by
          rw [allTxs_cons]
          simp only [hexIDs, List.map_append, List.mem_append]
          exact Or.inl (txsEntries_hex_mem hu)
        rw [chainInputs_cons, inputSpends_append,
          show inputSpends u (inputsOf b.Transactions) = false from
            not_spends_of_avoid h1 u hx, Bool.false_or]
      have hEbs : ∀ u ∈ chainEntries a bs,
          (!(inputSpends u (chainInputs bs))) =
            (!(inputSpends u (chainInputs (b :: bs)))) := by
        intro u hu
        have hx : BytesToHex u.TxID ∈ hexIDs (allTxs (b :: bs)) := by
          rw [allTxs_cons]
          simp only [hexIDs, List.map_append, List.mem_append]
          exact Or.inr (txsEntries_hex_mem hu)
        rw [chainInputs_cons, inputSpends_append,
          show inputSpends u (inputsOf b.Transactions) = false from
            not_spends_of_avoid h1 u hx, Bool.false_or]
      rw [List.filter_congr hEb, List.filter_congr hEbs]
      rw [show chainEntries a (b :: bs) =
          txsEntries a b.Transactions ++ chainEntries a bs by
        simp [chainEntries, allTxs_cons, txsEntries_append]]
      rw [List.filter_append, ← List.append_assoc]
      congr 2
      apply List.filter_congr
      intro u _
      rw [chainInputs_cons, inputSpends_append]
      simp [Bool.and_comm]
  rw [main blocks _ addr h]
  simp

/-- `Reindex` of a no-forward-reference chain, characterized per
address. -/
theorem reindex_char (us : UTXOSet) (blocks : List Block) (d : Int)
    (addr : String) (h : refsOnlyEarlier blocks = true) :
    (UTXOSet.Reindex us { Blocks := blocks, Difficulty := d }).UTXOs addr =
      (chainEntries addr blocks.reverse).filter
        (fun u => !(inputSpends u (chainInputs blocks))) := by
  simp only [UTXOSet.Reindex]
  exact reindexFold_char blocks addr h

/-- **C6** — for every chain whose inputs only reference transactions of
strictly earlier blocks (no input's tx-id hex matches a transaction of
its own or a later block): `Reindex` applied twice equals `Reindex`
applied once (it discards its receiver and rebuilds from the chain), and
folding `Update` block by block from the empty UTXO set yields, at every
address, the same multiset of `(tx id, out index, output)` entries as a
single `Reindex` of the chain (which scans the blocks in reverse
order — the per-address lists agree up to that reordering). -/
theorem c6_update_fold_refines_reindex (us0 : UTXOSet) (blocks : List Block)
    (d : Int) (h : refsOnlyEarlier blocks = true) :
    UTXOSet.Reindex (UTXOSet.Reindex us0 { Blocks := blocks, Difficulty := d })
        { Blocks := blocks, Difficulty := d } =
      UTXOSet.Reindex us0 { Blocks := blocks, Difficulty := d } ∧
    ∀ addr : String,
      ((blocks.foldl UTXOSet.Update { UTXOs := fun _ => [] }).UTXOs addr :
          Multiset UTXO) =
        ((UTXOSet.Reindex us0 { Blocks := blocks, Difficulty := d }).UTXOs addr :
          Multiset UTXO) := by
  constructor
  · rfl
  · intro addr
    rw [Multiset.coe_eq_coe, updFold_char blocks addr h,
      reindex_char us0 blocks d addr h]
    exact (List.Perm.filter _ (chainEntries_reverse_perm addr blocks)).symm

end Stage3

namespace Stage3

/-- A coinbase transaction paying 50 to the address hex `"07"`. -/
def cCbTxC6 : Transaction :=
  { ID := [1],
    Inputs := [{ TxID := [], OutIndex := -1, Signature := [], PubKey := [] }],
    Outputs := [{ Value := 50, PubKeyHash := [7] }], Timestamp := 0 }

/-- A transaction spending output 0 of the coinbase, paying 30 to `"08"`
and 20 back to `"07"`. -/
def cSpendTxC6 : Transaction :=
  { ID := [2],
    Inputs := [{ TxID := [1], OutIndex := 0, Signature := [], PubKey := [] }],
    Outputs := [{ Value := 30, PubKeyHash := [8] },
      { Value := 20, PubKeyHash := [7] }], Timestamp := 1 }

/-- A two-block chain: genesis with the coinbase, then the spend. -/
def cChainC6 : List Block :=
  [{ Index := 0, Timestamp := 0, Transactions := [cCbTxC6],
      PreviousHash := "", Hash := "h0", Nonce := 0, Difficulty := 0 },
   { Index := 1, Timestamp := 1, Transactions := [cSpendTxC6],
      PreviousHash := "h0", Hash := "h1", Nonce := 0, Difficulty := 0 }]

/-- Witness for **C6** at the concrete two-block chain and the address
hex `"07"`. -/
theorem c6_update_fold_refines_reindex_witness :
    UTXOSet.Reindex
        (UTXOSet.Reindex { UTXOs := fun _ => [] }
          { Blocks := cChainC6, Difficulty := 0 })
        { Blocks := cChainC6, Difficulty := 0 } =
      UTXOSet.Reindex { UTXOs := fun _ => [] }
        { Blocks := cChainC6, Difficulty := 0 } ∧
    ((cChainC6.foldl UTXOSet.Update { UTXOs := fun _ => [] }).UTXOs "07" :
        Multiset UTXO) =
      ((UTXOSet.Reindex { UTXOs := fun _ => [] }
          { Blocks := cChainC6, Difficulty := 0 }).UTXOs "07" :
        Multiset UTXO) :=
  ⟨(c6_update_fold_refines_reindex { UTXOs := fun _ => [] } cChainC6 0
      (by decide)).1,
    (c6_update_fold_refines_reindex { UTXOs := fun _ => [] } cChainC6 0
      (by decide)).2 "07"⟩

end Stage3
